import Mathlib

set_option maxHeartbeats 1000000

/-!
Verification of the core of readme-patcher (src/core.py) against its
natural-language specification.  The code is shallowly embedded over
`List Char`: Python strings become `List Char`, `str.find` becomes
`findSub`, the regex `FENCE_RE` becomes the explicit scanner `findBlocks`,
the insertion-ordered `dict` used for from/to pairing becomes an ordered
association list, and the filesystem touched by `apply_plan` becomes an
association list from paths to contents.
-/

abbrev Text := List Char

/-- The backquote character (the first fence-family character of `FENCE_RE`). -/
def backquote : Char := Char.ofNat 96

/-! ## Embedding of the string primitives used by `_replace_once` -/

/-- Embeds Python `text.find(pat)` (core.py line 53): index of the leftmost
occurrence of `pat` in `text`, `none` when there is none (Python returns -1).
Note `''.find('')` is `0`: the empty pattern occurs at index 0. -/
def findSub : Text → Text → Option Nat
  | [], pat => if pat.isPrefixOf [] then some 0 else none
  | c :: rest, pat =>
    if pat.isPrefixOf (c :: rest) then some 0 else (findSub rest pat).map (· + 1)

/-- Embeds Python `s.replace("\n", "\r\n")` (core.py lines 56 and 58): every
LF character is replaced by CR LF (an existing CR LF hence becomes CR CR LF). -/
def lfToCrlf : Text → Text
  | [] => []
  | '\n' :: r => '\r' :: '\n' :: lfToCrlf r
  | c :: r => c :: lfToCrlf r

/-- Embeds Python `text.replace(pat, repl, 1)` (core.py line 58): replace the
leftmost occurrence of `pat` by `repl`; return `text` unchanged if absent. -/
def replaceFirst (t pat repl : Text) : Text :=
  match findSub t pat with
  | none => t
  | some i => t.take i ++ repl ++ t.drop (i + pat.length)

/-- Embeds `_replace_once(text, old, new)` (core.py lines 52-60). -/
def replace_once (text old new : Text) : Option Text :=
  match findSub text old with
  | some idx => some (text.take idx ++ new ++ text.drop (idx + old.length))
  | none =>
    let old_crlf := lfToCrlf old
    if (findSub text old_crlf).isSome then
      some (replaceFirst text old_crlf (lfToCrlf new))
    else none

/-- `pat` occurs in `t` at index `i` (specification-side notion of literal
substring occurrence, independent of `findSub`). -/
abbrev occursAt (t pat : Text) (i : Nat) : Prop := pat.isPrefixOf (t.drop i) = true

/-- Modelled from the words of claim C1 (refinement reference, not from the
source): the CRLF-normalized form of a snippet, "every line ending rewritten
to CRLF" — CR LF stays CR LF, bare LF becomes CR LF, bare CR becomes CR LF. -/
def normalizeEol : Text → Text
  | [] => []
  | '\r' :: '\n' :: r => '\r' :: '\n' :: normalizeEol r
  | '\n' :: r => '\r' :: '\n' :: normalizeEol r
  | '\r' :: r => '\r' :: '\n' :: normalizeEol r
  | c :: r => c :: normalizeEol r

/-- Modelled from the words of claim C1 (refinement reference, not from the
source): exact literal search first, then search for the claim's
CRLF-normalized `old`, replacing with the claim's CRLF-normalized `new`. -/
def replaceOnceClaim (text old new : Text) : Option Text :=
  match findSub text old with
  | some idx => some (text.take idx ++ new ++ text.drop (idx + old.length))
  | none =>
    let oldN := normalizeEol old
    if (findSub text oldN).isSome then
      some (replaceFirst text oldN (normalizeEol new))
    else none

/-! ## Embedding of `_simple_diff` -/

/-- The line-boundary characters of Python `str.splitlines` (LF, CR, vertical
tab, form feed, FS, GS, RS, NEL, LINE SEPARATOR, PARAGRAPH SEPARATOR). -/
def isLineBreak (c : Char) : Bool :=
  c = '\n' || c = '\r' || c = Char.ofNat 0x0b || c = Char.ofNat 0x0c ||
  c = Char.ofNat 0x1c || c = Char.ofNat 0x1d || c = Char.ofNat 0x1e ||
  c = Char.ofNat 0x85 || c = Char.ofNat 0x2028 || c = Char.ofNat 0x2029

/-- Worker for `splitlines`; `acc` holds the current line reversed. -/
def splitlinesGo : Text → Text → List Text
  | acc, [] => if acc.isEmpty then [] else [acc.reverse]
  | acc, '\r' :: '\n' :: r => acc.reverse :: splitlinesGo [] r
  | acc, c :: r =>
    if isLineBreak c then acc.reverse :: splitlinesGo [] r
    else splitlinesGo (c :: acc) r

/-- Embeds Python `s.splitlines()` (core.py lines 63-64): split at line
boundaries, CR LF counting as one boundary, with no trailing empty line. -/
def splitlines (s : Text) : List Text := splitlinesGo [] s

/-- The header line `@@ {name} @@` of `_simple_diff` (core.py line 65). -/
def diffHeader (name : Text) : Text := "@@ ".toList ++ name ++ " @@".toList

/-- Embeds Python `"\n".join(out)` (core.py line 75). -/
def joinNL : List Text → Text
  | [] => []
  | [l] => l
  | l :: ls => l ++ '\n' :: joinNL ls

/-- The body of `_simple_diff` after both texts have been split into lines
(the loop of core.py lines 66-74 plus the final join). -/
def diffOnLines (b a : List Text) (name : Text) : Text :=
  let mx := max b.length a.length
  let out := (List.range mx).foldl
    (fun out i =>
      let bl := b.getD i []
      let al := a.getD i []
      if bl ≠ al then out ++ ["- ".toList ++ bl, "+ ".toList ++ al] else out)
    [diffHeader name]
  let out := if out.length = 1 then out ++ ["(no changes)".toList] else out
  joinNL out

/-- Embeds `_simple_diff(before, after, name)` (core.py lines 62-75). -/
def simple_diff (before after name : Text) : Text :=
  diffOnLines (splitlines before) (splitlines after) name

/-- The removed/added line pairs of the report, written as the specification
describes them: one `- ` line and one `+ ` line for exactly those indices
where the two line lists differ, a missing line counting as empty. -/
def diffPairs (b a : List Text) : List Text :=
  (List.range (max b.length a.length)).flatMap
    (fun i =>
      if b.getD i [] ≠ a.getD i []
      then ["- ".toList ++ b.getD i [], "+ ".toList ++ a.getD i []]
      else [])

/-! ## Embedding of `FENCE_RE` (core.py lines 7-13)

The regex `(?ms)^(?P<fence>(three backquotes)|(three tildes))
(?P<header>[^\r\n]*)\r?\n(?P<body>.*?)(?:\r?\n)(?P=fence)[ \t]*(?:\r?\n|$)`
is embedded as an explicit scanner.  The alternation offers exactly two
three-character fences; the backreference forces the closing fence to be the
same three characters; the non-greedy body takes the shortest prefix whose
following line end is followed by the closing fence line; `finditer` scans
left to right, a match may start only at a line start (`^` with the `m`
flag: text start or right after LF), and scanning resumes after each match
(whose final `\r?\n|$` consumes the close line's line end when present). -/

/-- The backquote fence alternative of `FENCE_RE`. -/
def fenceBq : Text := [backquote, backquote, backquote]

/-- The tilde fence alternative of `FENCE_RE`. -/
def fenceTl : Text := ['~', '~', '~']

/-- Matches `(?P<header>[^\r\n]*)\r?\n`: the rest of the opening line,
followed by a mandatory line end; fails at end of input or at a CR not
followed by LF. -/
def matchHeader : Text → Option (Text × Text)
  | [] => none
  | c :: r =>
    if c = '\n' then some ([], r)
    else if c = '\r' then
      if r.head? = some '\n' then some ([], r.tail) else none
    else (matchHeader r).map (fun p => (c :: p.1, p.2))

/-- Matches `[ \t]*(?:\r?\n|$)`: skip spaces and tabs, then require a line
end (consumed) or end of input. -/
def afterSpaces : Text → Option Text
  | [] => some []
  | c :: r =>
    if c = '\n' then some r
    else if c = '\r' then
      if r.head? = some '\n' then some r.tail else none
    else if c = ' ' ∨ c = '\t' then afterSpaces r
    else none

/-- Attempts `(?P=fence)[ \t]*(?:\r?\n|$)` at the given position. -/
def tryClose (fence : Text) (s : Text) : Option Text :=
  if fence.isPrefixOf s then afterSpaces (s.drop fence.length) else none

/-- Matches `(?P<body>.*?)(?:\r?\n)(?P=fence)[ \t]*(?:\r?\n|$)`: the
shortest body followed by a line end and the closing fence line; returns the
body and the input remaining after the whole match.  A CR directly followed
by LF and the closing fence line is consumed by the `\r?\n` terminator and
is not part of the body. -/
def findBody (fence : Text) : Text → Option (Text × Text)
  | [] => none
  | c :: r =>
    if c = '\n' then
      match tryClose fence r with
      | some rem => some ([], rem)
      | none => (findBody fence r).map (fun p => ('\n' :: p.1, p.2))
    else if c = '\r' then
      if r.head? = some '\n' then
        match tryClose fence r.tail with
        | some rem => some ([], rem)
        | none => (findBody fence r).map (fun p => ('\r' :: p.1, p.2))
      else (findBody fence r).map (fun p => ('\r' :: p.1, p.2))
    else (findBody fence r).map (fun p => (c :: p.1, p.2))

/-- Attempts one fence family at the current position. -/
def tryFence (fence : Text) (s : Text) : Option ((Text × Text) × Text) :=
  if fence.isPrefixOf s then
    match matchHeader (s.drop fence.length) with
    | none => none
    | some (hd, rest) =>
      match findBody fence rest with
      | none => none
      | some (b, rem) => some ((hd, b), rem)
  else none

/-- Attempts a match of `FENCE_RE` at the current position (a line start):
the alternation tries the backquote fence first, then the tilde fence. -/
def matchAt (s : Text) : Option ((Text × Text) × Text) :=
  match tryFence fenceBq s with
  | some x => some x
  | none => tryFence fenceTl s

/-- Length bound used for the termination of `scan` (proof-valued
definition so that `scan` can be stated right after it). -/
def afterSpacesLen : ∀ s r : Text, afterSpaces s = some r → r.length ≤ s.length := by
  intro s
  induction s with
  | nil => intro r h; rw [afterSpaces] at h; cases h; simp
  | cons c t ih =>
    intro r h
    rw [afterSpaces] at h
    split at h
    · cases h; simp
    · split at h
      · split at h
        · cases h
          cases t with
          | nil => simp
          | cons c2 t2 => simp; omega
        · cases h
      · split at h
        · have := ih r h; simp; omega
        · cases h

/-- Length bound used for the termination of `scan`. -/
def tryCloseLen : ∀ fence s r : Text, tryClose fence s = some r → r.length ≤ s.length := by
  intro fence s r h
  rw [tryClose] at h
  split at h
  · calc r.length ≤ (s.drop fence.length).length := afterSpacesLen _ _ h
    _ ≤ s.length := by simp
  · cases h

/-- Length bound used for the termination of `scan`. -/
def matchHeaderLen : ∀ (s : Text) (p : Text × Text), matchHeader s = some p →
    p.2.length < s.length := by
  intro s
  induction s with
  | nil => intro p h; rw [matchHeader] at h; cases h
  | cons c t ih =>
    intro p h
    rw [matchHeader] at h
    split at h
    · cases h; simp
    · split at h
      · split at h
        · cases h
          cases t with
          | nil => simp
          | cons c2 t2 => simp; omega
        · cases h
      · rcases Option.map_eq_some'.mp h with ⟨q, hq, hpq⟩
        cases hpq
        exact Nat.lt_succ_of_lt (ih q hq)

/-- Length bound used for the termination of `scan`. -/
def findBodyLen : ∀ (s : Text) (fence : Text) (p : Text × Text),
    findBody fence s = some p → p.2.length < s.length := by
  intro s
  induction s with
  | nil => intro fence p h; rw [findBody] at h; cases h
  | cons c t ih =>
    intro fence p h
    rw [findBody] at h
    split at h
    · split at h
      · cases h
        rename_i hc
        exact Nat.lt_succ_of_le (tryCloseLen _ _ _ hc)
      · rcases Option.map_eq_some'.mp h with ⟨q, hq, hpq⟩
        cases hpq
        exact Nat.lt_succ_of_lt (ih _ q hq)
    · split at h
      · split at h
        · split at h
          · cases h
            rename_i hc
            have h1 := tryCloseLen _ _ _ hc
            have h2 : t.tail.length ≤ t.length := by
              cases t with
              | nil => simp
              | cons c2 t2 => simp
            simp
            omega
          · rcases Option.map_eq_some'.mp h with ⟨q, hq, hpq⟩
            cases hpq
            exact Nat.lt_succ_of_lt (ih _ q hq)
        · rcases Option.map_eq_some'.mp h with ⟨q, hq, hpq⟩
          cases hpq
          exact Nat.lt_succ_of_lt (ih _ q hq)
      · rcases Option.map_eq_some'.mp h with ⟨q, hq, hpq⟩
        cases hpq
        exact Nat.lt_succ_of_lt (ih _ q hq)

/-- Length bound used for the termination of `scan`. -/
def tryFenceLen : ∀ (fence s : Text) (m : (Text × Text) × Text),
    tryFence fence s = some m → m.2.length < s.length := by
  intro fence s m h
  rw [tryFence] at h
  split at h
  · split at h
    case h_1 => cases h
    case h_2 hd rest hh =>
      split at h
      case h_1 => cases h
      case h_2 b rem hb =>
        cases h
        calc rem.length < rest.length := findBodyLen _ _ (b, rem) hb
        _ < (s.drop fence.length).length := matchHeaderLen _ (hd, rest) hh
        _ ≤ s.length := by simp
  · cases h

/-- Length bound used for the termination of `scan`. -/
def matchAtLen : ∀ (s : Text) (m : (Text × Text) × Text),
    matchAt s = some m → m.2.length < s.length := by
  intro s m h
  rw [matchAt] at h
  split at h
  · cases h
    rename_i h1
    exact tryFenceLen _ _ _ h1
  · exact tryFenceLen _ _ _ h

/-- Embeds `FENCE_RE.finditer` (used in core.py line 31): scan the text left
to right; at a line start attempt a match, on success emit the
(header, body) pair and resume after the match (the match's final line end,
when present, was consumed, so the resume position is again a line start);
on failure, or away from a line start, advance one character — the next
position is a line start exactly when the current character is LF. -/
def scan : Bool → Text → List (Text × Text)
  | _, [] => []
  | false, c :: r => scan (c = '\n') r
  | true, c :: r =>
    match h : matchAt (c :: r) with
    | some (hb, rem) => hb :: scan true rem
    | none => scan (c = '\n') r
termination_by _ s => s.length
decreasing_by
  · simp
  · exact matchAtLen _ _ h
  · simp

/-- All (header, body) pairs matched by `FENCE_RE` in the document. -/
def findBlocks (md : Text) : List (Text × Text) := scan true md

/-! ## Embedding of `_parse_header` and `parse_instructions`
(core.py lines 15-50) -/

/-- Whitespace characters of Python `str.split()` / `str.strip()` (ASCII
whitespace, the C1 separators, NEL and NBSP; header strings never contain
CR or LF, so the exact extent of the exotic part is immaterial here). -/
def isPySpace (c : Char) : Bool :=
  c = ' ' || c = '\t' || c = '\n' || c = '\r' || c = Char.ofNat 0x0b ||
  c = Char.ofNat 0x0c || c = Char.ofNat 0x1c || c = Char.ofNat 0x1d ||
  c = Char.ofNat 0x1e || c = Char.ofNat 0x1f || c = Char.ofNat 0x85 ||
  c = Char.ofNat 0xa0

/-- Worker for `pyTokens`; `acc` holds the current token reversed. -/
def pyTokensGo : Text → Text → List Text
  | acc, [] => if acc.isEmpty then [] else [acc.reverse]
  | acc, c :: r =>
    if isPySpace c then
      if acc.isEmpty then pyTokensGo [] r else acc.reverse :: pyTokensGo [] r
    else pyTokensGo (c :: acc) r

/-- Embeds `header.strip().split()` (with empty tokens dropped,
core.py line 16): maximal runs of non-whitespace characters. -/
def pyTokens (s : Text) : List Text := pyTokensGo [] s

/-- Pairing mode of a block: the Python strings "from" and "to". -/
inductive Mode where
  | fromM : Mode
  | toM : Mode
deriving DecidableEq

/-- The result dictionary of `_parse_header`: optional mode and file. -/
structure Header where
  mode : Option Mode := none
  file : Option Text := none
deriving DecidableEq

/-- Python `str.lower()` restricted to its ASCII action (the tokens compared
against, "from"/"to"/"file=", are ASCII). -/
def toLowerStr (s : Text) : Text := s.map Char.toLower

/-- One iteration of the token loop of `_parse_header` (core.py lines
18-24): `from`/`to` case-insensitively set the mode, a token starting with
the case-sensitive `file=` sets the file to the rest of the token, anything
else is ignored. -/
def headerStep (res : Header) (t : Text) : Header :=
  let low := toLowerStr t
  if low = "from".toList then { res with mode := some Mode.fromM }
  else if low = "to".toList then { res with mode := some Mode.toM }
  else if "file=".toList.isPrefixOf t then { res with file := some (t.drop 5) }
  else res

/-- Embeds `_parse_header(header)` (core.py lines 15-25). -/
def parse_header (header : Text) : Header :=
  (pyTokens header).foldl headerStep {}

/-- A scanned fenced block: its header string and its body. -/
abbrev Block := Text × Text

/-- Patch instructions (the dictionaries built in core.py lines 43 and 48;
the `doc` diagnostic label, constant per call, is omitted). -/
inductive Instr where
  | write (file content : Text) : Instr
  | replace (file fromS toS : Text) : Instr
deriving DecidableEq

/-- A from/to pair record (the inner dict of `pairs`, core.py line 40). -/
structure PairRec where
  fromB : Option Text := none
  toB : Option Text := none
deriving DecidableEq

/-- `pairs.setdefault(p, {})[mode] = body` on an insertion-ordered
association list (Python dict semantics): update the record in place when
`p` is already a key, else append the new key at the end. -/
def setPair : List (Text × PairRec) → Text → Mode → Text → List (Text × PairRec)
  | [], p, Mode.fromM, body => [(p, { fromB := some body })]
  | [], p, Mode.toM, body => [(p, { toB := some body })]
  | (q, r) :: rest, p, m, body =>
    if q = p then
      match m with
      | Mode.fromM => (q, { r with fromB := some body }) :: rest
      | Mode.toM => (q, { r with toB := some body }) :: rest
    else (q, r) :: setPair rest p m body

/-- One iteration of the block loop of `parse_instructions` (core.py lines
31-43): skip blocks without `file=`; blocks with a mode feed the pairing
dict; blocks without a mode append a `write` instruction. -/
def scanStep (st : List Instr × List (Text × PairRec)) (blk : Block) :
    List Instr × List (Text × PairRec) :=
  let meta := parse_header blk.1
  match meta.file with
  | none => st
  | some f =>
    match meta.mode with
    | some m => (st.1, setPair st.2 f m blk.2)
    | none => (st.1 ++ [Instr.write f blk.2], st.2)

/-- The `replace` instructions emitted after the scan (core.py lines
45-48): one per pair record holding both halves, in dict order. -/
def emitReplaces (ps : List (Text × PairRec)) : List Instr :=
  ps.filterMap (fun e =>
    match e.2.fromB, e.2.toB with
    | some a, some b => some (Instr.replace e.1 a b)
    | _, _ => none)

/-- `parse_instructions` on an already-scanned block list. -/
def parseInstrB (bs : List Block) : List Instr :=
  let st := bs.foldl scanStep ([], [])
  st.1 ++ emitReplaces st.2

/-- Embeds `parse_instructions(md_text)` (core.py lines 27-50). -/
def parse_instructions (md : Text) : List Instr := parseInstrB (findBlocks md)

/-! ## Specification-side notions for the extractor -/

/-- The `file` entry of a block's parsed header. -/
def blockFile (blk : Block) : Option Text := (parse_header blk.1).file

/-- The `mode` entry of a block's parsed header. -/
def blockMode (blk : Block) : Option Mode := (parse_header blk.1).mode

/-- The target path of a block that takes part in pairing (both a `file=`
token and a from/to mode token present). -/
def relPath (blk : Block) : Option Text :=
  match blockFile blk, blockMode blk with
  | some f, some _ => some f
  | _, _ => none

/-- The paths of pairing-relevant blocks, in order of appearance. -/
def touched (bs : List Block) : List Text := bs.filterMap relPath

/-- Keeps the first occurrence of each element, in order. -/
def dedupKeepFirst : List Text → List Text
  | [] => []
  | a :: l => a :: dedupKeepFirst (l.filter (fun x => x ≠ a))
termination_by l => l.length
decreasing_by
  exact Nat.lt_succ_of_le (List.length_filter_le _ _)

/-- The body of the last from-tagged block for path `p` (a later block
overwrites an earlier one, core.py line 41). -/
def lastFromB : List Block → Text → Option Text
  | [], _ => none
  | blk :: rest, p =>
    match lastFromB rest p with
    | some b => some b
    | none =>
      if blockFile blk = some p ∧ blockMode blk = some Mode.fromM
      then some blk.2 else none

/-- The body of the last to-tagged block for path `p`. -/
def lastToB : List Block → Text → Option Text
  | [], _ => none
  | blk :: rest, p =>
    match lastToB rest p with
    | some b => some b
    | none =>
      if blockFile blk = some p ∧ blockMode blk = some Mode.toM
      then some blk.2 else none

/-- Left-biased choice on options. -/
def or2 {α : Type} : Option α → Option α → Option α
  | some x, _ => some x
  | none, b => b

/-- Merge of an earlier pair record with later from/to bodies. -/
def mergeRec (r : PairRec) (lf lt : Option Text) : PairRec :=
  { fromB := or2 lf r.fromB, toB := or2 lt r.toB }

/-- Keys of the pairing association list, in order. -/
abbrev keysOf (ps : List (Text × PairRec)) : List Text := ps.map Prod.fst

/-- The write instruction contributed by a block (`file=` but no mode). -/
def toWrite (blk : Block) : Option Instr :=
  match blockFile blk, blockMode blk with
  | some f, none => some (Instr.write f blk.2)
  | _, _ => none

/-- All write instructions of a block list, in order of appearance. -/
def writesOf (bs : List Block) : List Instr := bs.filterMap toWrite

/-- The pairing-dict part of one block step. -/
def pairStep (ps : List (Text × PairRec)) (blk : Block) : List (Text × PairRec) :=
  match blockFile blk, blockMode blk with
  | some f, some m => setPair ps f m blk.2
  | _, _ => ps

/-- Modelled from the words of claim C3: the index of the block at which
path `p`'s pair first holds both a from half and a to half. -/
def completionIdx (bs : List Block) (p : Text) : Option Nat :=
  (List.range bs.length).find? (fun k =>
    (lastFromB (bs.take (k+1)) p).isSome && (lastToB (bs.take (k+1)) p).isSome)

/-- The file targeted by an instruction. -/
def instrFile : Instr → Text
  | Instr.write f _ => f
  | Instr.replace f _ _ => f

/-- Whether an instruction is a `replace` for path `p`. -/
def isReplaceFor (p : Text) : Instr → Bool
  | Instr.replace f _ _ => f = p
  | Instr.write _ _ => false

/-- Whether an instruction is a `write`. -/
def isWriteInstr : Instr → Bool
  | Instr.write _ _ => true
  | Instr.replace _ _ _ => false

/-! ## Embedding of `apply_plan` (core.py lines 95-115) -/

/-- The filesystem as an association list from target paths to contents
(path resolution against the root and parent-directory creation, core.py
lines 98-99, are glue and identity in this model). -/
abbrev FS := List (Text × Text)

/-- File lookup: `target.exists()` / `target.read_text()`. -/
def fsRead : FS → Text → Option Text
  | [], _ => none
  | (q, c) :: rest, p => if q = p then some c else fsRead rest p

/-- File overwrite/creation: `target.write_text(...)`. -/
def fsWrite : FS → Text → Text → FS
  | [], p, c => [(p, c)]
  | (q, c0) :: rest, p, c =>
    if q = p then (q, c) :: rest else (q, c0) :: fsWrite rest p c

/-- One instruction of the loop of `apply_plan` (core.py lines 97-114):
the new filesystem and whether the instruction succeeded.  A `write`
overwrites (creating the file if absent); a `replace` fails when the file is
missing (line 105) or the snippet is not found (line 109), else overwrites
with the replacement result.  The unexpected-I/O `except` branch (lines
113-114) has no counterpart in this pure model, where writes always
succeed. -/
def applyItem (fs : FS) : Instr → FS × Bool
  | Instr.write f content => (fsWrite fs f content, true)
  | Instr.replace f a b =>
    match fsRead fs f with
    | none => (fs, false)
    | some before =>
      match replace_once before a b with
      | none => (fs, false)
      | some after => (fsWrite fs f after, true)

/-- Worker for `apply_plan`, carrying the `ok` flag of core.py line 96. -/
def applyPlanGo : FS → Bool → List Instr → FS × Bool
  | fs, ok, [] => (fs, ok)
  | fs, ok, i :: rest => applyPlanGo (applyItem fs i).1 (ok && (applyItem fs i).2) rest

/-- Embeds `apply_plan(plan, root)` (core.py lines 95-115); `root`,
`encoding` and the verbose printing are glue and omitted. -/
def apply_plan (fs : FS) (plan : List Instr) : FS × Bool := applyPlanGo fs true plan

/-- The per-instruction success flags along the plan, computed
independently of the aggregate flag. -/
def outcomes : FS → List Instr → List Bool
  | _, [] => []
  | fs, i :: rest => (applyItem fs i).2 :: outcomes (applyItem fs i).1 rest

/-- The filesystem evolution alone, ignoring success flags. -/
def fsAfter (fs : FS) (plan : List Instr) : FS :=
  plan.foldl (fun s i => (applyItem s i).1) fs

/-- A well-formed fenced block (three fence characters `fc`, a header line,
a body, a closing fence line) followed by the rest of the document. -/
def blockText (fc : Char) (hd b rest : Text) : Text :=
  fc :: fc :: fc :: (hd ++ '\n' :: (b ++ '\n' :: fc :: fc :: fc :: '\n' :: rest))

/-- The same block written with four fence characters on both fence lines. -/
def blockText4 (fc : Char) (hd b rest : Text) : Text :=
  fc :: fc :: fc :: fc ::
    (hd ++ '\n' :: (b ++ '\n' :: fc :: fc :: fc :: fc :: '\n' :: rest))

/-- A document that is a sequence of well-formed backquote-fenced blocks. -/
def mkBlocksDoc : List (Text × Text) → Text
  | [] => []
  | p :: ps => blockText backquote p.1 p.2 (mkBlocksDoc ps)

/-- The single-mode record update of `setPair` (`pair[mode] = body`). -/
def upd1 (r : PairRec) (m : Mode) (body : Text) : PairRec :=
  match m with
  | Mode.fromM => { r with fromB := some body }
  | Mode.toM => { r with toB := some body }

/-- The replace instruction contributed by path `p` after a scan of `bs`:
present exactly when both halves were seen, pairing the last from body with
the last to body. -/
def replaceOf (bs : List Block) (p : Text) : Option Instr :=
  match lastFromB bs p, lastToB bs p with
  | some a, some c => some (Instr.replace p a c)
  | _, _ => none

/-! ## Theorems -/

theorem findSub_none_not_occurs {t pat : Text} (h : findSub t pat = none) :
    ∀ j, ¬ occursAt t pat j := by
  induction t with
  | nil =>
    intro j hj
    rw [findSub] at h
    cases hp : pat.isPrefixOf ([] : Text) with
    | true => rw [hp] at h; simp at h
    | false =>
      simp only [occursAt, List.drop_nil] at hj
      rw [hp] at hj
      simp at hj
  | cons c rest ih =>
    intro j hj
    rw [findSub] at h
    cases hp : pat.isPrefixOf (c :: rest) with
    | true => rw [hp] at h; simp at h
    | false =>
      rw [hp] at h
      simp only [Bool.false_eq_true, if_false] at h
      cases j with
      | zero =>
        simp only [occursAt, List.drop_zero] at hj
        rw [hp] at hj
        simp at hj
      | succ k =>
        have hrest : findSub rest pat = none := by
          cases hfs : findSub rest pat with
          | none => rfl
          | some v => rw [hfs] at h; simp at h
        exact ih hrest k (by simpa using hj)

theorem findSub_some_spec {t pat : Text} {i : Nat} (h : findSub t pat = some i) :
    occursAt t pat i ∧ ∀ j, j < i → ¬ occursAt t pat j := by
  induction t generalizing i with
  | nil =>
    rw [findSub] at h
    cases hp : pat.isPrefixOf ([] : Text) with
    | true =>
      rw [hp] at h
      simp only [if_true] at h
      cases h
      exact ⟨hp, by omega⟩
    | false => rw [hp] at h; simp at h
  | cons c rest ih =>
    rw [findSub] at h
    cases hp : pat.isPrefixOf (c :: rest) with
    | true =>
      rw [hp] at h
      simp only [if_true] at h
      cases h
      exact ⟨hp, by omega⟩
    | false =>
      rw [hp] at h
      simp only [Bool.false_eq_true, if_false] at h
      cases hfs : findSub rest pat with
      | none => rw [hfs] at h; simp at h
      | some v =>
        rw [hfs] at h
        simp only [Option.map_some'] at h
        cases h
        obtain ⟨hocc, hmin⟩ := ih hfs
        refine ⟨by simpa using hocc, ?_⟩
        intro j hj
        cases j with
        | zero =>
          intro hc
          simp only [occursAt, List.drop_zero] at hc
          rw [hp] at hc
          simp at hc
        | succ k =>
          intro hc
          exact hmin k (by omega) (by simpa using hc)

theorem findSub_eq_some_of {t pat : Text} {i : Nat} (hocc : occursAt t pat i)
    (hmin : ∀ j, j < i → ¬ occursAt t pat j) : findSub t pat = some i := by
  cases hfs : findSub t pat with
  | none => exact absurd hocc (findSub_none_not_occurs hfs i)
  | some k =>
    obtain ⟨hk, hkmin⟩ := findSub_some_spec hfs
    have : k = i := by
      rcases Nat.lt_trichotomy k i with h | h | h
      · exact absurd hk (hmin k h)
      · exact h
      · exact absurd hocc (hkmin i h)
    rw [this]

theorem findSub_eq_none_of {t pat : Text} (h : ∀ j, ¬ occursAt t pat j) :
    findSub t pat = none := by
  cases hfs : findSub t pat with
  | none => rfl
  | some k => exact absurd (findSub_some_spec hfs).1 (h k)

/-- Claim C1 (amended): `replace_once` first does an exact literal search for
`old` and, when `old` occurs, replaces exactly the leftmost occurrence by
`new`; when `old` does not occur it searches for `old` with every LF rewritten
to CRLF (so an existing CRLF becomes CR CR LF) and replaces the leftmost
occurrence of that form by `new` with every LF rewritten to CRLF; when neither
occurs it returns `none` (NOT_FOUND) and the haystack is untouched. -/
theorem c1_replace_once_amended (t old new : Text) :
    (∀ i, occursAt t old i → (∀ j, j < i → ¬ occursAt t old j) →
      replace_once t old new = some (t.take i ++ new ++ t.drop (i + old.length)))
    ∧ (∀ i, (∀ j, ¬ occursAt t old j) →
        occursAt t (lfToCrlf old) i →
        (∀ j, j < i → ¬ occursAt t (lfToCrlf old) j) →
        replace_once t old new =
          some (t.take i ++ lfToCrlf new ++ t.drop (i + (lfToCrlf old).length)))
    ∧ ((∀ j, ¬ occursAt t old j) → (∀ j, ¬ occursAt t (lfToCrlf old) j) →
        replace_once t old new = none) := by
  refine ⟨?_, ?_, ?_⟩
  · intro i hocc hmin
    have h := findSub_eq_some_of hocc hmin
    simp [replace_once, h]
  · intro i hnone hocc hmin
    have h0 := findSub_eq_none_of hnone
    have h1 := findSub_eq_some_of hocc hmin
    simp [replace_once, h0, h1, replaceFirst]
  · intro hnone hnoneC
    have h0 := findSub_eq_none_of hnone
    have h1 := findSub_eq_none_of hnoneC
    simp [replace_once, h0, h1]

/-- Witness for `c1_replace_once_amended`: on haystack "ab", snippet "b" occurs
first at index 1 and is replaced there; on haystack "a", snippet "b" (whose
CRLF form is again "b") does not occur and NOT_FOUND results. -/
theorem c1_replace_once_amended_witness :
    replace_once "ab".toList "b".toList "c".toList = some "ac".toList
    ∧ replace_once "a".toList "b".toList "c".toList = none := by
  constructor
  · exact (c1_replace_once_amended "ab".toList "b".toList "c".toList).1 1
      (by decide) (by intro j hj; interval_cases j; decide)
  · exact (c1_replace_once_amended "a".toList "b".toList "c".toList).2.2
      (findSub_none_not_occurs (by decide))
      (findSub_none_not_occurs (by decide))

/-- Counterexample to claim C1 as stated: with haystack "a\r\r\nb" and
oldSnippet "a\r\nb", the exact search fails, and the claim's CRLF-normalized
form of the snippet is "a\r\nb" itself (its line ending is already CRLF), which
does not occur either, so the claim predicts NOT_FOUND — but the code rewrites
the snippet's LF to CRLF producing "a\r\r\nb", finds it, and replaces it. -/
theorem c1_counterexample :
    replace_once "a\r\r\nb".toList "a\r\nb".toList "X".toList = some "X".toList
    ∧ replaceOnceClaim "a\r\r\nb".toList "a\r\nb".toList "X".toList = none := by
  constructor <;> decide

/-- Claim C6 (amended): after a successful `replace_once`, re-running the same
replacement on the result fails with NOT_FOUND provided the result contains no
occurrence of the snippet and none of its LF-to-CRLF-rewritten form; when other
occurrences remain in the result, re-application can instead succeed. -/
theorem c6_reapply_amended (t old new r : Text)
    (_ : replace_once t old new = some r)
    (h1 : ∀ i, ¬ occursAt r old i)
    (h2 : ∀ i, ¬ occursAt r (lfToCrlf old) i) :
    replace_once r old new = none := by
  simp [replace_once, findSub_eq_none_of h1, findSub_eq_none_of h2]

/-- Witness for `c6_reapply_amended`: replacing "a" by "b" in "a" gives "b",
which contains neither "a" nor its CRLF form, so re-application fails. -/
theorem c6_reapply_amended_witness :
    replace_once "b".toList "a".toList "b".toList = none := by
  exact c6_reapply_amended "a".toList "a".toList "b".toList "b".toList
    (by decide)
    (findSub_none_not_occurs (by decide))
    (findSub_none_not_occurs (by decide))

/-- Counterexample to claim C6 as stated: in haystack "aa" the snippet "a"
(distinct from the replacement "b") occurs twice; the first application
replaces only the leftmost occurrence, giving "ba", and re-running the same
replacement succeeds again (producing "bb") instead of failing with
NOT_FOUND. -/
theorem c6_counterexample :
    replace_once "aa".toList "a".toList "b".toList = some "ba".toList
    ∧ replace_once "ba".toList "a".toList "b".toList = some "bb".toList := by
  constructor <;> decide

theorem foldl_collect (g : Nat → List Text) (l : List Nat) :
    ∀ init : List Text,
      l.foldl (fun out i => out ++ g i) init = init ++ l.flatMap g := by
  induction l with
  | nil => intro init; simp
  | cons x xs ih =>
    intro init
    simp [List.foldl_cons, ih, List.append_assoc]

theorem diffOnLines_eq (b a : List Text) (n : Text) :
    diffOnLines b a n =
      joinNL (diffHeader n ::
        (if diffPairs b a = [] then ["(no changes)".toList] else diffPairs b a)) := by
  have hfun :
      (fun (out : List Text) i =>
          if b.getD i [] ≠ a.getD i []
          then out ++ ["- ".toList ++ b.getD i [], "+ ".toList ++ a.getD i []]
          else out) =
        (fun (out : List Text) i => out ++
          (if b.getD i [] ≠ a.getD i []
           then ["- ".toList ++ b.getD i [], "+ ".toList ++ a.getD i []]
           else [])) := by
    funext out i
    split <;> simp
  simp only [diffOnLines, hfun, foldl_collect, diffPairs]
  cases hp :
      (List.range (max b.length a.length)).flatMap
        (fun i =>
          if b.getD i [] ≠ a.getD i []
          then ["- ".toList ++ b.getD i [], "+ ".toList ++ a.getD i []]
          else []) with
  | nil => simp
  | cons y ys => simp

theorem diffPairs_eq_nil_of {b a : List Text}
    (h : ∀ i, i < max b.length a.length → b.getD i [] = a.getD i []) :
    diffPairs b a = [] := by
  unfold diffPairs
  rw [List.flatMap_eq_nil_iff]
  intro i hi
  rw [List.mem_range] at hi
  rw [h i hi]
  simp

/-- Claim C7: `_simple_diff` splits both texts into lines, walks the indices
below the longer line count, and for exactly those indices where the two lines
differ (a missing line past either end counting as empty) emits one removed
line then one added line; the report is the newline-join of the labeled header
followed by those pairs, and when no index differs the report instead states
"(no changes)" after the header. -/
theorem c7_simple_diff (before after name : Text) :
    (simple_diff before after name =
      joinNL (diffHeader name ::
        (if diffPairs (splitlines before) (splitlines after) = []
         then ["(no changes)".toList]
         else diffPairs (splitlines before) (splitlines after))))
    ∧ ((∀ i, i < max (splitlines before).length (splitlines after).length →
          (splitlines before).getD i [] = (splitlines after).getD i []) →
        simple_diff before after name =
          joinNL [diffHeader name, "(no changes)".toList]) := by
  constructor
  · exact diffOnLines_eq _ _ _
  · intro h
    rw [simple_diff, diffOnLines_eq, diffPairs_eq_nil_of h]
    simp

/-- Witness for `c7_simple_diff`: on equal texts no index differs and the
report is the header followed by "(no changes)". -/
theorem c7_simple_diff_witness :
    simple_diff "q".toList "q".toList "f".toList =
      joinNL [diffHeader "f".toList, "(no changes)".toList] := by
  exact (c7_simple_diff "q".toList "q".toList "f".toList).2
    (by intro i hi; rfl)

/-- Claim C9: the diff report is computed from the `splitlines` decompositions
alone, not from the raw texts, and it is not a faithful equality test: texts
differing only by a trailing final newline, or only by CRLF versus LF line
endings, are distinct yet produce a report stating there is no change; in
general equal decompositions always give the "(no changes)" report. -/
theorem c9_diff_not_equality :
    (∀ b a n : Text,
      simple_diff b a n = diffOnLines (splitlines b) (splitlines a) n)
    ∧ ("a\n".toList ≠ "a".toList
        ∧ simple_diff "a\n".toList "a".toList "f".toList =
            joinNL [diffHeader "f".toList, "(no changes)".toList])
    ∧ ("a\r\nb".toList ≠ "a\nb".toList
        ∧ simple_diff "a\r\nb".toList "a\nb".toList "f".toList =
            joinNL [diffHeader "f".toList, "(no changes)".toList])
    ∧ (∀ b a n : Text, splitlines b = splitlines a →
        simple_diff b a n = joinNL [diffHeader n, "(no changes)".toList]) := by
  refine ⟨fun b a n => rfl, ⟨by decide, by decide⟩, ⟨by decide, by decide⟩, ?_⟩
  intro b a n h
  rw [simple_diff, h, diffOnLines_eq, diffPairs_eq_nil_of (fun i _ => rfl)]
  simp

/-- Witness for `c9_diff_not_equality`: texts "x\r\n" and "x" have equal
`splitlines` decompositions, so the diff reports no change although the raw
texts differ. -/
theorem c9_diff_not_equality_witness :
    simple_diff "x\r\n".toList "x".toList "f".toList =
      joinNL [diffHeader "f".toList, "(no changes)".toList] := by
  exact c9_diff_not_equality.2.2.2 "x\r\n".toList "x".toList "f".toList (by decide)

theorem applyPlanGo_eq (plan : List Instr) :
    ∀ (fs : FS) (ok : Bool),
      applyPlanGo fs ok plan = (fsAfter fs plan, ok && (outcomes fs plan).all id) := by
  induction plan with
  | nil => intro fs ok; simp [applyPlanGo, fsAfter, outcomes]
  | cons i rest ih =>
    intro fs ok
    rw [applyPlanGo, ih, outcomes]
    simp [fsAfter, List.foldl_cons, Bool.and_assoc]

theorem outcomes_append (xs ys : List Instr) :
    ∀ fs : FS, outcomes fs (xs ++ ys) = outcomes fs xs ++ outcomes (fsAfter fs xs) ys := by
  induction xs with
  | nil => intro fs; simp [outcomes, fsAfter]
  | cons i rest ih =>
    intro fs
    rw [List.cons_append, outcomes, outcomes, ih]
    simp [fsAfter, List.foldl_cons]

theorem fsAfter_append (xs ys : List Instr) (fs : FS) :
    fsAfter fs (xs ++ ys) = fsAfter (fsAfter fs xs) ys := by
  simp [fsAfter, List.foldl_append]

/-- Claim C5: `apply_plan` processes every instruction in plan order — the
filesystem evolution is the full fold of the per-instruction step, and the
run over `xs ++ ys` always continues through `ys` from the state left by
`xs`, whatever the outcomes in `xs` were — and its aggregate flag is true
exactly when every single instruction of the plan succeeded. -/
theorem c5_apply_plan (fs : FS) (plan : List Instr) :
    ((apply_plan fs plan).2 = true ↔ (outcomes fs plan).all id = true)
    ∧ (apply_plan fs plan).1 = fsAfter fs plan
    ∧ ∀ xs ys, plan = xs ++ ys →
        (apply_plan fs plan).1 = (apply_plan (apply_plan fs xs).1 ys).1
        ∧ (apply_plan fs plan).2 =
            ((apply_plan fs xs).2 && (apply_plan (apply_plan fs xs).1 ys).2) := by
  refine ⟨?_, ?_, ?_⟩
  · rw [apply_plan, applyPlanGo_eq]; simp
  · rw [apply_plan, applyPlanGo_eq]
  · intro xs ys hsplit
    subst hsplit
    constructor
    · rw [apply_plan, apply_plan, apply_plan, applyPlanGo_eq, applyPlanGo_eq,
        applyPlanGo_eq]
      simp [fsAfter_append]
    · rw [apply_plan, apply_plan, apply_plan, applyPlanGo_eq, applyPlanGo_eq,
        applyPlanGo_eq]
      simp [outcomes_append, fsAfter_append, List.all_append]

/-- Witness for `c5_apply_plan`: a two-instruction plan whose second
instruction (a replace on a missing file) fails; the aggregate flag is the
conjunction of both instruction runs, and the first write still applied. -/
theorem c5_apply_plan_witness :
    (apply_plan []
        [Instr.write "a".toList "x".toList,
         Instr.replace "b".toList "y".toList "z".toList]).2 =
      ((apply_plan [] [Instr.write "a".toList "x".toList]).2 &&
        (apply_plan (apply_plan [] [Instr.write "a".toList "x".toList]).1
          [Instr.replace "b".toList "y".toList "z".toList]).2) := by
  exact ((c5_apply_plan []
      [Instr.write "a".toList "x".toList,
       Instr.replace "b".toList "y".toList "z".toList]).2.2
    [Instr.write "a".toList "x".toList]
    [Instr.replace "b".toList "y".toList "z".toList] rfl).2

theorem isPrefixOf_three_false {fc c : Char} {r : Text} (h : fc ≠ c) :
    List.isPrefixOf [fc, fc, fc] (c :: r) = false := by
  cases hbc : (fc == c) with
  | false => simp [List.isPrefixOf, hbc]
  | true => exact absurd (beq_iff_eq.mp hbc) h

theorem isPrefixOf_three_self {fc : Char} {r : Text} :
    List.isPrefixOf [fc, fc, fc] (fc :: fc :: fc :: r) = true := by
  simp [List.isPrefixOf]

theorem fenceChar_ne {fc : Char} (hfc : fc = backquote ∨ fc = '~') :
    fc ≠ '\n' ∧ fc ≠ '\r' ∧ fc ≠ ' ' ∧ fc ≠ '\t' := by
  rcases hfc with h | h <;> subst h <;>
    exact ⟨by decide, by decide, by decide, by decide⟩

theorem matchHeader_clean (hd : Text) (rest : Text)
    (h : ∀ c ∈ hd, c ≠ '\r' ∧ c ≠ '\n') :
    matchHeader (hd ++ '\n' :: rest) = some (hd, rest) := by
  induction hd with
  | nil => rw [List.nil_append, matchHeader]; simp
  | cons c t ih =>
    have hc := h c (by simp)
    rw [List.cons_append, matchHeader, if_neg hc.2, if_neg hc.1,
      ih (fun x hx => h x (by simp [hx]))]
    simp

theorem tryClose_cons_none {fc c : Char} {r : Text} (h : c ≠ fc) :
    tryClose [fc, fc, fc] (c :: r) = none := by
  rw [tryClose, isPrefixOf_three_false (Ne.symm h)]
  simp

theorem tryClose_nil (fc : Char) : tryClose [fc, fc, fc] [] = none := by
  rw [tryClose]
  simp [List.isPrefixOf]

theorem tryClose_self (fc : Char) (rest : Text) :
    tryClose [fc, fc, fc] (fc :: fc :: fc :: '\n' :: rest) = some rest := by
  rw [tryClose, if_pos isPrefixOf_three_self]
  show afterSpaces ('\n' :: rest) = some rest
  rw [afterSpaces]
  simp

theorem tryClose_none_mid {fc : Char} (hfcn : fc ≠ '\n') (t Z : Text)
    (ht : ∀ c ∈ t, c ≠ fc) :
    tryClose [fc, fc, fc] (t ++ '\n' :: Z) = none := by
  cases t with
  | nil => exact tryClose_cons_none (Ne.symm hfcn)
  | cons c2 t2 => exact tryClose_cons_none (ht c2 (by simp))

theorem getLast?_tail_ne {c : Char} {t : Text} (h : (c :: t).getLast? ≠ some '\r') :
    t.getLast? ≠ some '\r' := by
  cases t with
  | nil => simp
  | cons c2 t2 => simpa [List.getLast?_cons_cons] using h

theorem findBody_clean (fc : Char) (hfc : fc = backquote ∨ fc = '~') :
    ∀ (b rest : Text), (∀ c ∈ b, c ≠ fc) → b.getLast? ≠ some '\r' →
      findBody [fc, fc, fc] (b ++ '\n' :: fc :: fc :: fc :: '\n' :: rest) =
        some (b, rest) := by
  have hfcn := (fenceChar_ne hfc).1
  intro b
  induction b with
  | nil =>
    intro rest _ _
    rw [List.nil_append, findBody, if_pos rfl, tryClose_self]
  | cons c t ih =>
    intro rest hb hlast
    have hc : c ≠ fc := hb c (by simp)
    have hbt : ∀ x ∈ t, x ≠ fc := fun x hx => hb x (by simp [hx])
    have hlt : t.getLast? ≠ some '\r' := getLast?_tail_ne hlast
    have ihr := ih rest hbt hlt
    by_cases hcn : c = '\n'
    · subst hcn
      rw [List.cons_append, findBody, if_pos rfl,
        tryClose_none_mid hfcn t _ hbt, ihr]
      simp
    · by_cases hcr : c = '\r'
      · subst hcr
        rw [List.cons_append, findBody, if_neg (by decide),
          if_pos rfl]
        cases t with
        | nil => simp at hlast
        | cons c2 t2 =>
          by_cases hc2 : c2 = '\n'
          · subst hc2
            rw [if_pos (by simp)]
            have htail : (('\n' :: t2) ++ '\n' :: fc :: fc :: fc :: '\n' :: rest).tail
                = t2 ++ '\n' :: fc :: fc :: fc :: '\n' :: rest := by simp
            rw [htail,
              tryClose_none_mid hfcn t2 _ (fun x hx => hbt x (by simp [hx])), ihr]
            simp
          · rw [if_neg (by simp [hc2]), ihr]
            simp
      · rw [List.cons_append, findBody, if_neg hcn, if_neg hcr, ihr]
        simp

theorem tryFence_block (fc : Char) (hfc : fc = backquote ∨ fc = '~')
    (hd b rest : Text)
    (hhd : ∀ c ∈ hd, c ≠ '\r' ∧ c ≠ '\n')
    (hb : ∀ c ∈ b, c ≠ fc)
    (hlast : b.getLast? ≠ some '\r') :
    tryFence [fc, fc, fc]
        (fc :: fc :: fc :: (hd ++ '\n' :: (b ++ '\n' :: fc :: fc :: fc :: '\n' :: rest)))
      = some ((hd, b), rest) := by
  rw [tryFence, if_pos isPrefixOf_three_self]
  have hdrop :
      (fc :: fc :: fc ::
        (hd ++ '\n' :: (b ++ '\n' :: fc :: fc :: fc :: '\n' :: rest))).drop
          ([fc, fc, fc] : Text).length
      = hd ++ '\n' :: (b ++ '\n' :: fc :: fc :: fc :: '\n' :: rest) := by
    simp
  rw [hdrop, matchHeader_clean hd _ hhd]
  simp [findBody_clean fc hfc b rest hb hlast]

theorem tryFence_head_ne {fc c : Char} {r : Text} (h : fc ≠ c) :
    tryFence [fc, fc, fc] (c :: r) = none := by
  rw [tryFence, isPrefixOf_three_false h]
  simp

theorem matchAt_block (fc : Char) (hfc : fc = backquote ∨ fc = '~')
    (hd b rest : Text)
    (hhd : ∀ c ∈ hd, c ≠ '\r' ∧ c ≠ '\n')
    (hb : ∀ c ∈ b, c ≠ fc)
    (hlast : b.getLast? ≠ some '\r') :
    matchAt (fc :: fc :: fc ::
        (hd ++ '\n' :: (b ++ '\n' :: fc :: fc :: fc :: '\n' :: rest)))
      = some ((hd, b), rest) := by
  rcases hfc with h | h
  · subst h
    rw [matchAt]
    have := tryFence_block backquote (Or.inl rfl) hd b rest hhd hb hlast
    rw [show fenceBq = [backquote, backquote, backquote] from rfl, this]
  · subst h
    rw [matchAt]
    rw [show fenceBq = [backquote, backquote, backquote] from rfl,
      tryFence_head_ne (by decide)]
    have := tryFence_block '~' (Or.inr rfl) hd b rest hhd hb hlast
    rw [show fenceTl = ['~', '~', '~'] from rfl, this]

theorem matchAt_cons_none {c : Char} {r : Text}
    (h1 : c ≠ backquote) (h2 : c ≠ '~') : matchAt (c :: r) = none := by
  rw [matchAt,
    show fenceBq = [backquote, backquote, backquote] from rfl,
    tryFence_head_ne (Ne.symm h1),
    show fenceTl = ['~', '~', '~'] from rfl,
    tryFence_head_ne (Ne.symm h2)]

theorem scan_false_skip (rest : Text) :
    ∀ l : Text, (∀ c ∈ l, c ≠ '\n') →
      scan false (l ++ '\n' :: rest) = scan true rest := by
  intro l
  induction l with
  | nil =>
    intro _
    rw [List.nil_append, scan]
    simp
  | cons c t ih =>
    intro h
    have hc : c ≠ '\n' := h c (by simp)
    rw [List.cons_append, scan, decide_eq_false hc]
    exact ih (fun x hx => h x (by simp [hx]))

theorem scan_noFence (rest : Text) :
    ∀ b : Text, (∀ c ∈ b, c ≠ backquote ∧ c ≠ '~') →
      ∀ flag, scan flag (b ++ '\n' :: rest) = scan true rest := by
  intro b
  induction b with
  | nil =>
    intro _ flag
    cases flag
    · rw [List.nil_append, scan]
      simp
    · rw [List.nil_append, scan, matchAt_cons_none (by decide) (by decide)]
      simp
  | cons c t ih =>
    intro h flag
    have hc := h c (by simp)
    have ih' := ih (fun x hx => h x (by simp [hx]))
    cases flag
    · rw [List.cons_append, scan]
      exact ih' _
    · rw [List.cons_append, scan, matchAt_cons_none hc.1 hc.2]
      exact ih' _

theorem scan_block_cons (fc : Char) (hfc : fc = backquote ∨ fc = '~')
    (hd b rest : Text)
    (hhd : ∀ c ∈ hd, c ≠ '\r' ∧ c ≠ '\n')
    (hb : ∀ c ∈ b, c ≠ fc)
    (hlast : b.getLast? ≠ some '\r') :
    scan true (fc :: fc :: fc ::
        (hd ++ '\n' :: (b ++ '\n' :: fc :: fc :: fc :: '\n' :: rest)))
      = (hd, b) :: scan true rest := by
  rw [scan, matchAt_block fc hfc hd b rest hhd hb hlast]

theorem findBody_line_end (fc : Char) :
    ∀ l : Text, (∀ c ∈ l, c ≠ '\n' ∧ c ≠ '\r') →
      findBody [fc, fc, fc] (l ++ '\n' :: []) = none := by
  intro l
  induction l with
  | nil =>
    intro _
    rw [List.nil_append, findBody, if_pos rfl, tryClose_nil]
    rw [findBody]
    simp
  | cons c t ih =>
    intro h
    have hc := h c (by simp)
    rw [List.cons_append, findBody, if_neg hc.1, if_neg hc.2,
      ih (fun x hx => h x (by simp [hx]))]
    simp

theorem tryClose_four (fc : Char) (hfc : fc = backquote ∨ fc = '~') (Z : Text) :
    tryClose [fc, fc, fc] (fc :: fc :: fc :: fc :: '\n' :: Z) = none := by
  have hne := fenceChar_ne hfc
  rw [tryClose, if_pos isPrefixOf_three_self]
  show afterSpaces (fc :: '\n' :: Z) = none
  rw [afterSpaces, if_neg hne.1, if_neg hne.2.1,
    if_neg (by rintro (h | h) <;> [exact hne.2.2.1 h; exact hne.2.2.2 h])]

theorem findBody_none_four (fc : Char) (hfc : fc = backquote ∨ fc = '~') :
    ∀ b : Text, (∀ c ∈ b, c ≠ fc) →
      findBody [fc, fc, fc]
        (b ++ '\n' :: fc :: fc :: fc :: fc :: '\n' :: []) = none := by
  have hne := fenceChar_ne hfc
  have htail : findBody [fc, fc, fc] ((fc :: fc :: fc :: fc :: []) ++ '\n' :: []) = none :=
    findBody_line_end fc _ (by
      intro c hc
      simp at hc
      subst hc
      exact ⟨hne.1, hne.2.1⟩)
  intro b
  induction b with
  | nil =>
    intro _
    rw [List.nil_append, findBody, if_pos rfl, tryClose_four fc hfc]
    have : ((fc :: fc :: fc :: fc :: []) ++ '\n' :: []) =
        (fc :: fc :: fc :: fc :: '\n' :: []) := by simp
    rw [this] at htail
    rw [htail]
    simp
  | cons c t ih =>
    intro hb
    have hc : c ≠ fc := hb c (by simp)
    have hbt : ∀ x ∈ t, x ≠ fc := fun x hx => hb x (by simp [hx])
    have ihr := ih hbt
    by_cases hcn : c = '\n'
    · subst hcn
      rw [List.cons_append, findBody, if_pos rfl,
        tryClose_none_mid hne.1 t _ hbt, ihr]
      simp
    · by_cases hcr : c = '\r'
      · subst hcr
        rw [List.cons_append, findBody, if_neg (by decide), if_pos rfl]
        cases t with
        | nil =>
          rw [if_pos (by simp)]
          have htl : (([] : Text) ++ '\n' :: fc :: fc :: fc :: fc :: '\n' :: []).tail
              = fc :: fc :: fc :: fc :: '\n' :: [] := by simp
          rw [htl, tryClose_four fc hfc, ihr]
          simp
        | cons c2 t2 =>
          by_cases hc2 : c2 = '\n'
          · subst hc2
            rw [if_pos (by simp)]
            have htl : (('\n' :: t2) ++ '\n' :: fc :: fc :: fc :: fc :: '\n' :: []).tail
                = t2 ++ '\n' :: fc :: fc :: fc :: fc :: '\n' :: [] := by simp
            rw [htl,
              tryClose_none_mid hne.1 t2 _ (fun x hx => hbt x (by simp [hx])), ihr]
            simp
          · rw [if_neg (by simp [hc2]), ihr]
            simp
      · rw [List.cons_append, findBody, if_neg hcn, if_neg hcr, ihr]
        simp

theorem matchAt_none_of_noBody (fc : Char) (hfc : fc = backquote ∨ fc = '~')
    (hd X : Text) (hhd : ∀ c ∈ hd, c ≠ '\r' ∧ c ≠ '\n')
    (hX : findBody [fc, fc, fc] X = none) :
    matchAt (fc :: fc :: fc :: (hd ++ '\n' :: X)) = none := by
  have hfail : tryFence [fc, fc, fc] (fc :: fc :: fc :: (hd ++ '\n' :: X)) = none := by
    rw [tryFence, if_pos isPrefixOf_three_self]
    have hdrop :
        (fc :: fc :: fc :: (hd ++ '\n' :: X)).drop ([fc, fc, fc] : Text).length
        = hd ++ '\n' :: X := by simp
    rw [hdrop, matchHeader_clean hd _ hhd]
    simp [hX]
  rcases hfc with h | h
  · subst h
    rw [matchAt, show fenceBq = [backquote, backquote, backquote] from rfl, hfail]
    rw [show fenceTl = ['~', '~', '~'] from rfl, tryFence_head_ne (by decide)]
  · subst h
    rw [matchAt, show fenceBq = [backquote, backquote, backquote] from rfl,
      tryFence_head_ne (by decide)]
    rw [show fenceTl = ['~', '~', '~'] from rfl, hfail]

theorem scan_fail_line (fc : Char) (hfc : fc = backquote ∨ fc = '~')
    (hd X : Text) (hhd : ∀ c ∈ hd, c ≠ '\r' ∧ c ≠ '\n')
    (hX : findBody [fc, fc, fc] X = none) :
    scan true (fc :: fc :: fc :: (hd ++ '\n' :: X)) = scan true X := by
  have hne := fenceChar_ne hfc
  rw [scan, matchAt_none_of_noBody fc hfc hd X hhd hX]
  show scan (decide (fc = '\n')) (fc :: fc :: (hd ++ '\n' :: X)) = scan true X
  rw [decide_eq_false hne.1]
  have hform : fc :: fc :: (hd ++ '\n' :: X) = (fc :: fc :: hd) ++ '\n' :: X := by
    simp
  rw [hform]
  exact scan_false_skip X _ (by
    intro c hc
    rcases List.mem_cons.mp hc with h | hc2
    · subst h; exact hne.1
    · rcases List.mem_cons.mp hc2 with h | h3
      · subst h; exact hne.1
      · exact (hhd c h3).2)

theorem findBlocks_block (fc : Char) (hfc : fc = backquote ∨ fc = '~')
    (hd b rest : Text)
    (hhd : ∀ c ∈ hd, c ≠ '\r' ∧ c ≠ '\n')
    (hb : ∀ c ∈ b, c ≠ fc)
    (hlast : b.getLast? ≠ some '\r') :
    findBlocks (blockText fc hd b rest) = (hd, b) :: findBlocks rest := by
  rw [findBlocks, blockText, scan_block_cons fc hfc hd b rest hhd hb hlast]
  rfl

theorem findBlocks_single (fc : Char) (hfc : fc = backquote ∨ fc = '~')
    (hd b : Text)
    (hhd : ∀ c ∈ hd, c ≠ '\r' ∧ c ≠ '\n')
    (hb : ∀ c ∈ b, c ≠ fc)
    (hlast : b.getLast? ≠ some '\r') :
    findBlocks (blockText fc hd b []) = [(hd, b)] := by
  rw [findBlocks_block fc hfc hd b [] hhd hb hlast, findBlocks, scan]

theorem findBlocks_four (fc : Char) (hfc : fc = backquote ∨ fc = '~')
    (hd b : Text)
    (hhd : ∀ c ∈ hd, c ≠ '\r' ∧ c ≠ '\n')
    (hb : ∀ c ∈ b, c ≠ backquote ∧ c ≠ '~') :
    findBlocks (blockText4 fc hd b []) = [] := by
  have hne := fenceChar_ne hfc
  have hbfc : ∀ c ∈ b, c ≠ fc := by
    intro c hc
    rcases hfc with h | h <;> subst h
    · exact (hb c hc).1
    · exact (hb c hc).2
  have hhd' : ∀ c ∈ fc :: hd, c ≠ '\r' ∧ c ≠ '\n' := by
    intro c hc
    rcases List.mem_cons.mp hc with h | h
    · subst h; exact ⟨hne.2.1, hne.1⟩
    · exact hhd c h
  rw [findBlocks, blockText4]
  have hstep :
      fc :: fc :: fc :: fc ::
          (hd ++ '\n' :: (b ++ '\n' :: fc :: fc :: fc :: fc :: '\n' :: []))
        = fc :: fc :: fc ::
          ((fc :: hd) ++ '\n' :: (b ++ '\n' :: fc :: fc :: fc :: fc :: '\n' :: [])) := by
    simp
  rw [hstep,
    scan_fail_line fc hfc (fc :: hd) _ hhd' (findBody_none_four fc hfc b hbfc),
    scan_noFence (fc :: fc :: fc :: fc :: '\n' :: []) b hb true]
  have hstep2 : (fc :: fc :: fc :: fc :: '\n' :: [] : Text)
      = fc :: fc :: fc :: ((fc :: []) ++ '\n' :: []) := by simp
  rw [hstep2,
    scan_fail_line fc hfc (fc :: []) []
      (by intro c hc; simp at hc; subst hc; exact ⟨hne.2.1, hne.1⟩)
      (by rw [findBody]),
    scan]

theorem findBlocks_immediate_close (fc : Char) (hfc : fc = backquote ∨ fc = '~')
    (hd : Text) (hhd : ∀ c ∈ hd, c ≠ '\r' ∧ c ≠ '\n') :
    findBlocks (fc :: fc :: fc :: (hd ++ '\n' :: fc :: fc :: fc :: '\n' :: [])) = [] := by
  have hne := fenceChar_ne hfc
  have hX : findBody [fc, fc, fc] (fc :: fc :: fc :: '\n' :: []) = none := by
    have := findBody_line_end fc (fc :: fc :: fc :: [])
      (by intro c hc; simp at hc; subst hc; exact ⟨hne.1, hne.2.1⟩)
    simpa using this
  rw [findBlocks, scan_fail_line fc hfc hd _ hhd hX]
  have hstep : (fc :: fc :: fc :: '\n' :: [] : Text)
      = fc :: fc :: fc :: (([] : Text) ++ '\n' :: []) := by simp
  rw [hstep,
    scan_fail_line fc hfc [] [] (by intro c hc; simp at hc) (by rw [findBody]),
    scan]

theorem findBlocks_mkDoc :
    ∀ blocks : List (Text × Text),
      (∀ p ∈ blocks, (∀ c ∈ p.1, c ≠ '\r' ∧ c ≠ '\n')
        ∧ (∀ c ∈ p.2, c ≠ backquote) ∧ p.2.getLast? ≠ some '\r') →
      findBlocks (mkBlocksDoc blocks) = blocks := by
  intro blocks
  induction blocks with
  | nil => intro _; rw [mkBlocksDoc, findBlocks, scan]
  | cons p ps ih =>
    intro h
    obtain ⟨hh, hb, hl⟩ := h p (by simp)
    rw [mkBlocksDoc, findBlocks_block backquote (Or.inl rfl) p.1 p.2 _ hh hb hl,
      ih (fun q hq => h q (by simp [hq]))]

/-- Claim C4 (amended): a code block is recognized when it opens with a line
beginning with exactly three identical fence characters from one of the two
accepted families (backquote or tilde) and closes at the first following
line consisting of the same three characters, optionally followed only by
spaces or tabs; characters beyond the first three on the opening line —
including further fence characters — are header text, and a closing line of
four fence characters is not a valid close, so a block fenced with
four-character fences on both sides is not recognized at all. -/
theorem c4_fence_amended (fc : Char) (hfc : fc = backquote ∨ fc = '~')
    (hd b : Text)
    (hhd : ∀ c ∈ hd, c ≠ '\r' ∧ c ≠ '\n')
    (hb : ∀ c ∈ b, c ≠ backquote ∧ c ≠ '~')
    (hlast : b.getLast? ≠ some '\r') :
    findBlocks (blockText fc hd b []) = [(hd, b)]
    ∧ findBlocks (blockText4 fc hd b []) = [] := by
  have hbfc : ∀ c ∈ b, c ≠ fc := by
    intro c hc
    rcases hfc with h | h <;> subst h
    · exact (hb c hc).1
    · exact (hb c hc).2
  exact ⟨findBlocks_single fc hfc hd b hhd hbfc hlast,
    findBlocks_four fc hfc hd b hhd hb⟩

/-- Witness for `c4_fence_amended`: the backquote family with header "x" and
body "body". -/
theorem c4_fence_amended_witness :
    findBlocks (blockText backquote "x".toList "body".toList []) =
        [("x".toList, "body".toList)]
    ∧ findBlocks (blockText4 backquote "x".toList "body".toList []) = [] := by
  exact c4_fence_amended backquote (Or.inl rfl) "x".toList "body".toList
    (by decide) (by decide) (by decide)

/-- Counterexample to claim C4 as stated: a block fenced with four backquotes
on both fence lines is not recognized at all (no block is found), while the
same block with three-backquote fences is; four-or-more-character fences are
not treated like three-character ones. -/
theorem c4_counterexample :
    findBlocks "````x\nbody\n````\n".toList = []
    ∧ findBlocks "```x\nbody\n```\n".toList = [("x".toList, "body".toList)] := by
  constructor
  · have he : "````x\nbody\n````\n".toList
        = blockText4 backquote "x".toList "body".toList [] := by decide
    rw [he]
    exact findBlocks_four backquote (Or.inl rfl) "x".toList "body".toList
      (by decide) (by decide)
  · have he : "```x\nbody\n```\n".toList
        = blockText backquote "x".toList "body".toList [] := by decide
    rw [he]
    exact findBlocks_single backquote (Or.inl rfl) "x".toList "body".toList
      (by decide) (by decide) (by decide)

/-- Claim C8 (amended): a fenced block whose closing fence line comes
immediately after the header line (zero body lines) is not recognized as a
code block and yields no instruction; however, a write instruction with
empty content is still attainable — a block whose body is a single blank
line matches with an empty body (its line end is consumed as the body
terminator), so an empty file can be expressed as a write block. -/
theorem c8_empty_body_amended (fc : Char) (hfc : fc = backquote ∨ fc = '~')
    (hd : Text) (hhd : ∀ c ∈ hd, c ≠ '\r' ∧ c ≠ '\n') :
    findBlocks (fc :: fc :: fc :: (hd ++ '\n' :: fc :: fc :: fc :: '\n' :: [])) = []
    ∧ parse_instructions (fc :: fc :: fc ::
        (hd ++ '\n' :: fc :: fc :: fc :: '\n' :: [])) = []
    ∧ parse_instructions "```file=x\n\n```\n".toList =
        [Instr.write "x".toList []] := by
  refine ⟨findBlocks_immediate_close fc hfc hd hhd, ?_, ?_⟩
  · rw [parse_instructions, findBlocks_immediate_close fc hfc hd hhd]
    rfl
  · have he : "```file=x\n\n```\n".toList
        = blockText backquote "file=x".toList [] [] := by decide
    rw [parse_instructions, he,
      findBlocks_single backquote (Or.inl rfl) "file=x".toList []
        (by decide) (by decide) (by decide)]
    decide

/-- Witness for `c8_empty_body_amended`: a backquote block with header
"file=y" closed immediately after the header yields nothing. -/
theorem c8_empty_body_amended_witness :
    parse_instructions (backquote :: backquote :: backquote ::
        ("file=y".toList ++ '\n' :: backquote :: backquote :: backquote :: '\n' :: []))
      = [] := by
  exact (c8_empty_body_amended backquote (Or.inl rfl) "file=y".toList (by decide)).2.1

/-- Counterexample to claim C8 as stated: its consequence fails — the
document consisting of one block whose body is a single blank line produces
a write instruction whose content is empty, so an empty file can be
expressed as a write block after all. -/
theorem c8_counterexample :
    parse_instructions "```file=x\n\n```\n".toList = [Instr.write "x".toList []] := by
  have he : "```file=x\n\n```\n".toList
      = blockText backquote "file=x".toList [] [] := by decide
  rw [parse_instructions, he,
    findBlocks_single backquote (Or.inl rfl) "file=x".toList []
      (by decide) (by decide) (by decide)]
  decide

/-- Claim C10: `_parse_header` recognizes the from/to mode tokens
case-insensitively but matches the `file=` prefix case-sensitively: a token
whose lowercase form starts with `file=` but whose own spelling does not
(such as `File=app.py`) leaves the header result unchanged, so no target
path is set; a block whose only path token is so spelled is silently
dropped with no instruction, while the lowercase spelling produces one, and
mixed-case from/to tokens still pair. -/
theorem c10_file_case_sensitive :
    (∀ (res : Header) (t : Text),
      "file=".toList.isPrefixOf (toLowerStr t) = true →
      "file=".toList.isPrefixOf t = false →
      headerStep res t = res)
    ∧ (∀ (res : Header) (t : Text), toLowerStr t = "from".toList →
        headerStep res t = { res with mode := some Mode.fromM })
    ∧ (∀ (res : Header) (t : Text), toLowerStr t = "to".toList →
        headerStep res t = { res with mode := some Mode.toM })
    ∧ parse_instructions "```File=app.py\nX\n```\n".toList = []
    ∧ parse_instructions "```file=app.py\nX\n```\n".toList =
        [Instr.write "app.py".toList "X".toList]
    ∧ parse_instructions
        (mkBlocksDoc [("FROM file=a".toList, "x".toList),
          ("To file=a".toList, "y".toList)]) =
        [Instr.replace "a".toList "x".toList "y".toList] := by
  refine ⟨?_, ?_, ?_, ?_, ?_, ?_⟩
  · intro res t h1 h2
    have hf : ¬ toLowerStr t = "from".toList := by
      intro he; rw [he] at h1; exact absurd h1 (by decide)
    have ht : ¬ toLowerStr t = "to".toList := by
      intro he; rw [he] at h1; exact absurd h1 (by decide)
    simp only [headerStep, if_neg hf, if_neg ht, h2]
    simp
  · intro res t h
    simp only [headerStep, h]
    simp
  · intro res t h
    have hf : ¬ ("to".toList = ("from".toList : Text)) := by decide
    simp only [headerStep, h, if_neg hf]
    simp
  · have he : "```File=app.py\nX\n```\n".toList
        = blockText backquote "File=app.py".toList "X".toList [] := by decide
    rw [parse_instructions, he,
      findBlocks_single backquote (Or.inl rfl) "File=app.py".toList "X".toList
        (by decide) (by decide) (by decide)]
    decide
  · have he : "```file=app.py\nX\n```\n".toList
        = blockText backquote "file=app.py".toList "X".toList [] := by decide
    rw [parse_instructions, he,
      findBlocks_single backquote (Or.inl rfl) "file=app.py".toList "X".toList
        (by decide) (by decide) (by decide)]
    decide
  · rw [parse_instructions,
      findBlocks_mkDoc [("FROM file=a".toList, "x".toList),
        ("To file=a".toList, "y".toList)] (by decide)]
    decide

/-- Witness for `c10_file_case_sensitive`: the token `File=app.py` satisfies
the hypotheses of the first conjunct and leaves the empty header result
unchanged. -/
theorem c10_file_case_sensitive_witness :
    ("file=".toList.isPrefixOf (toLowerStr "File=app.py".toList) = true)
    ∧ ("file=".toList.isPrefixOf "File=app.py".toList = false)
    ∧ headerStep {} "File=app.py".toList = {} := by
  exact ⟨by decide, by decide,
    c10_file_case_sensitive.1 {} "File=app.py".toList (by decide) (by decide)⟩

theorem or2_none_right {α : Type} (a : Option α) : or2 a none = a := by
  cases a <;> rfl

theorem or2_none_left {α : Type} (a : Option α) : or2 none a = a := rfl

theorem or2_assoc {α : Type} (a b c : Option α) :
    or2 (or2 a b) c = or2 a (or2 b c) := by
  cases a <;> rfl

theorem or2_some_absorb {α : Type} (a : Option α) (y : α) (c : Option α) :
    or2 (or2 a (some y)) c = or2 a (some y) := by
  cases a <;> rfl

theorem lastFromB_cons (blk : Block) (rest : List Block) (p : Text) :
    lastFromB (blk :: rest) p =
      or2 (lastFromB rest p)
        (if blockFile blk = some p ∧ blockMode blk = some Mode.fromM
         then some blk.2 else none) := by
  rw [lastFromB]
  cases lastFromB rest p <;> rfl

theorem lastToB_cons (blk : Block) (rest : List Block) (p : Text) :
    lastToB (blk :: rest) p =
      or2 (lastToB rest p)
        (if blockFile blk = some p ∧ blockMode blk = some Mode.toM
         then some blk.2 else none) := by
  rw [lastToB]
  cases lastToB rest p <;> rfl

theorem lastFromB_append (l1 l2 : List Block) (p : Text) :
    lastFromB (l1 ++ l2) p = or2 (lastFromB l2 p) (lastFromB l1 p) := by
  induction l1 with
  | nil => rw [List.nil_append, lastFromB, or2_none_right]
  | cons blk t ih =>
    rw [List.cons_append, lastFromB_cons, ih, lastFromB_cons, or2_assoc]

theorem lastToB_append (l1 l2 : List Block) (p : Text) :
    lastToB (l1 ++ l2) p = or2 (lastToB l2 p) (lastToB l1 p) := by
  induction l1 with
  | nil => rw [List.nil_append, lastToB, or2_none_right]
  | cons blk t ih =>
    rw [List.cons_append, lastToB_cons, ih, lastToB_cons, or2_assoc]

theorem lastFromB_none_of (l : List Block) (p : Text)
    (h : ∀ blk ∈ l, ¬ (blockFile blk = some p ∧ (blockMode blk).isSome = true)) :
    lastFromB l p = none := by
  induction l with
  | nil => rfl
  | cons blk t ih =>
    rw [lastFromB_cons, ih (fun q hq => h q (by simp [hq]))]
    rw [if_neg (fun hc => h blk (by simp) ⟨hc.1, by rw [hc.2]; rfl⟩)]
    rfl

theorem lastToB_none_of (l : List Block) (p : Text)
    (h : ∀ blk ∈ l, ¬ (blockFile blk = some p ∧ (blockMode blk).isSome = true)) :
    lastToB l p = none := by
  induction l with
  | nil => rfl
  | cons blk t ih =>
    rw [lastToB_cons, ih (fun q hq => h q (by simp [hq]))]
    rw [if_neg (fun hc => h blk (by simp) ⟨hc.1, by rw [hc.2]; rfl⟩)]
    rfl

theorem scanStep_eq (st : List Instr × List (Text × PairRec)) (blk : Block) :
    scanStep st blk = (st.1 ++ (toWrite blk).toList, pairStep st.2 blk) := by
  rw [scanStep, pairStep, toWrite, blockFile, blockMode]
  cases hf : (parse_header blk.1).file with
  | none => simp
  | some f =>
    cases hm : (parse_header blk.1).mode with
    | none => simp
    | some m => simp

theorem foldl_scanStep (bs : List Block) :
    ∀ st : List Instr × List (Text × PairRec),
      bs.foldl scanStep st = (st.1 ++ writesOf bs, bs.foldl pairStep st.2) := by
  induction bs with
  | nil => intro st; simp [writesOf]
  | cons blk rest ih =>
    intro st
    rw [List.foldl_cons, scanStep_eq, ih, List.foldl_cons]
    simp only [writesOf, List.filterMap_cons]
    cases toWrite blk <;> simp

theorem setPair_nil (p : Text) (m : Mode) (body : Text) :
    setPair [] p m body = [(p, upd1 {} m body)] := by
  cases m <;> rfl

theorem setPair_cons_eq (q : Text) (r : PairRec) (rest : List (Text × PairRec))
    (m : Mode) (body : Text) :
    setPair ((q, r) :: rest) q m body = (q, upd1 r m body) :: rest := by
  cases m <;> simp [setPair, upd1]

theorem setPair_cons_ne (q : Text) (r : PairRec) (rest : List (Text × PairRec))
    (p : Text) (m : Mode) (body : Text) (h : q ≠ p) :
    setPair ((q, r) :: rest) p m body = (q, r) :: setPair rest p m body := by
  cases m <;> simp [setPair, h]

theorem setPair_not_mem (p : Text) (m : Mode) (body : Text) :
    ∀ ps : List (Text × PairRec), p ∉ keysOf ps →
      setPair ps p m body = ps ++ [(p, upd1 {} m body)] := by
  intro ps
  induction ps with
  | nil => intro _; rw [setPair_nil]; rfl
  | cons e rest ih =>
    intro h
    obtain ⟨q, r⟩ := e
    have hq : q ≠ p := by
      intro he
      apply h
      rw [keysOf, List.map_cons]
      exact he ▸ List.mem_cons_self q _
    have hrest : p ∉ keysOf rest := by
      intro hm
      apply h
      rw [keysOf, List.map_cons]
      exact List.mem_cons_of_mem _ hm
    rw [setPair_cons_ne _ _ _ _ _ _ hq, ih hrest]
    rfl

theorem setPair_mem (p : Text) (m : Mode) (body : Text) :
    ∀ ps : List (Text × PairRec), (keysOf ps).Nodup → p ∈ keysOf ps →
      setPair ps p m body =
        ps.map (fun e => if e.1 = p then (e.1, upd1 e.2 m body) else e) := by
  intro ps
  induction ps with
  | nil => intro _ h; simp [keysOf] at h
  | cons e rest ih =>
    intro hnd hmem
    obtain ⟨q, r⟩ := e
    simp only [keysOf, List.map_cons, List.nodup_cons] at hnd
    by_cases hq : q = p
    · subst hq
      rw [setPair_cons_eq]
      have hrest : rest.map (fun e => if e.1 = q then (e.1, upd1 e.2 m body) else e)
          = rest := by
        apply List.map_congr_left ?_ |>.trans (List.map_id rest)
        intro e he
        have : e.1 ≠ q := by
          intro hh
          exact hnd.1 (hh ▸ List.mem_map_of_mem Prod.fst he)
        simp [this]
      rw [List.map_cons, hrest]
      simp
    · have hpr : p ∈ keysOf rest := by
        rw [keysOf, List.map_cons] at hmem
        rcases List.mem_cons.mp hmem with h | h
        · exact absurd h.symm hq
        · exact h
      rw [setPair_cons_ne _ _ _ _ _ _ hq, ih hnd.2 hpr, List.map_cons]
      simp [hq]

theorem dedupKeepFirst_cons (a : Text) (l : List Text) :
    dedupKeepFirst (a :: l) = a :: dedupKeepFirst (l.filter (fun x => x ≠ a)) := by
  rw [dedupKeepFirst]

theorem mem_dedupKeepFirst_aux : ∀ (n : Nat) (l : List Text), l.length ≤ n →
    ∀ x, (x ∈ dedupKeepFirst l ↔ x ∈ l) := by
  intro n
  induction n with
  | zero =>
    intro l hl x
    have h0 : l = [] := List.length_eq_zero.mp (Nat.le_zero.mp hl)
    subst h0
    rw [dedupKeepFirst]
  | succ n ih =>
    intro l hl x
    cases l with
    | nil => rw [dedupKeepFirst]
    | cons a t =>
      rw [dedupKeepFirst_cons]
      by_cases hx : x = a
      · subst hx; simp
      · simp only [List.mem_cons, hx, false_or]
        rw [ih (t.filter (fun x => x ≠ a))
          (le_trans (List.length_filter_le _ _) (by simpa using hl)) x]
        simp [List.mem_filter, hx]

theorem mem_dedupKeepFirst (l : List Text) (x : Text) :
    x ∈ dedupKeepFirst l ↔ x ∈ l :=
  mem_dedupKeepFirst_aux l.length l le_rfl x

theorem nodup_dedupKeepFirst_aux : ∀ (n : Nat) (l : List Text), l.length ≤ n →
    (dedupKeepFirst l).Nodup := by
  intro n
  induction n with
  | zero =>
    intro l hl
    have h0 : l = [] := List.length_eq_zero.mp (Nat.le_zero.mp hl)
    subst h0
    rw [dedupKeepFirst]
    exact List.nodup_nil
  | succ n ih =>
    intro l hl
    cases l with
    | nil => rw [dedupKeepFirst]; exact List.nodup_nil
    | cons a t =>
      rw [dedupKeepFirst_cons, List.nodup_cons]
      constructor
      · intro hmem
        rw [mem_dedupKeepFirst] at hmem
        have h2 := (List.mem_filter.mp hmem).2
        simp at h2
      · exact ih _ (le_trans (List.length_filter_le _ _) (by simpa using hl))

theorem nodup_dedupKeepFirst (l : List Text) : (dedupKeepFirst l).Nodup :=
  nodup_dedupKeepFirst_aux l.length l le_rfl

theorem keysOf_setPair (p : Text) (m : Mode) (body : Text) :
    ∀ ps : List (Text × PairRec),
      keysOf (setPair ps p m body) =
        if p ∈ keysOf ps then keysOf ps else keysOf ps ++ [p] := by
  intro ps
  induction ps with
  | nil =>
    rw [setPair_nil]
    simp [keysOf]
  | cons e rest ih =>
    obtain ⟨q, r⟩ := e
    by_cases hq : q = p
    · subst hq
      rw [setPair_cons_eq]
      have hmem : q ∈ keysOf ((q, r) :: rest) := by
        rw [keysOf, List.map_cons]
        exact List.mem_cons_self _ _
      rw [if_pos hmem, keysOf, keysOf, List.map_cons, List.map_cons]
    · rw [setPair_cons_ne _ _ _ _ _ _ hq]
      simp only [keysOf, List.map_cons] at ih ⊢
      rw [ih]
      by_cases hp : p ∈ rest.map Prod.fst
      · rw [if_pos hp, if_pos (List.mem_cons_of_mem _ hp)]
      · rw [if_neg hp, if_neg (by
          intro hc
          rcases List.mem_cons.mp hc with h | h
          · exact hq h.symm
          · exact hp h)]
        rfl

theorem keysOf_append (ps qs : List (Text × PairRec)) :
    keysOf (ps ++ qs) = keysOf ps ++ keysOf qs := by
  simp [keysOf]

theorem last_cons_irrel {blk : Block} {rest : List Block} {q : Text}
    (h : blockFile blk ≠ some q) :
    lastFromB (blk :: rest) q = lastFromB rest q
    ∧ lastToB (blk :: rest) q = lastToB rest q := by
  constructor
  · rw [lastFromB_cons, if_neg (fun hc => h hc.1), or2_none_right]
  · rw [lastToB_cons, if_neg (fun hc => h hc.1), or2_none_right]

theorem lastFromB_cons_not_from {blk : Block} {rest : List Block} {q : Text}
    (h : blockMode blk ≠ some Mode.fromM) :
    lastFromB (blk :: rest) q = lastFromB rest q := by
  rw [lastFromB_cons, if_neg (fun hc => h hc.2), or2_none_right]

theorem lastToB_cons_not_to {blk : Block} {rest : List Block} {q : Text}
    (h : blockMode blk ≠ some Mode.toM) :
    lastToB (blk :: rest) q = lastToB rest q := by
  rw [lastToB_cons, if_neg (fun hc => h hc.2), or2_none_right]

theorem lastFromB_cons_from {blk : Block} {rest : List Block} {f : Text}
    (hf : blockFile blk = some f) (hm : blockMode blk = some Mode.fromM) :
    lastFromB (blk :: rest) f = or2 (lastFromB rest f) (some blk.2) := by
  rw [lastFromB_cons, if_pos ⟨hf, hm⟩]

theorem lastToB_cons_to {blk : Block} {rest : List Block} {f : Text}
    (hf : blockFile blk = some f) (hm : blockMode blk = some Mode.toM) :
    lastToB (blk :: rest) f = or2 (lastToB rest f) (some blk.2) := by
  rw [lastToB_cons, if_pos ⟨hf, hm⟩]

theorem relPath_none_file {blk : Block} (h : blockFile blk = none) :
    relPath blk = none := by
  rw [relPath, h]

theorem relPath_none_mode {blk : Block} (h : blockMode blk = none) :
    relPath blk = none := by
  rw [relPath, h]
  cases blockFile blk <;> rfl

theorem relPath_some {blk : Block} {f : Text} {m : Mode}
    (hf : blockFile blk = some f) (hm : blockMode blk = some m) :
    relPath blk = some f := by
  rw [relPath, hf, hm]

theorem touched_cons_none {blk : Block} {rest : List Block}
    (h : relPath blk = none) : touched (blk :: rest) = touched rest := by
  simp [touched, List.filterMap_cons, h]

theorem touched_cons_some {blk : Block} {rest : List Block} {f : Text}
    (h : relPath blk = some f) : touched (blk :: rest) = f :: touched rest := by
  simp [touched, List.filterMap_cons, h]

theorem mergeRec_none (r : PairRec) : mergeRec r none none = r := by
  cases r
  rfl

theorem pairsFold_char :
    ∀ (bs : List Block) (ps : List (Text × PairRec)), (keysOf ps).Nodup →
      bs.foldl pairStep ps =
        ps.map (fun e => (e.1, mergeRec e.2 (lastFromB bs e.1) (lastToB bs e.1)))
        ++ (dedupKeepFirst ((touched bs).filter
              (fun p => decide (p ∉ keysOf ps)))).map
            (fun p => (p, PairRec.mk (lastFromB bs p) (lastToB bs p))) := by
  intro bs
  induction bs with
  | nil =>
    intro ps _
    rw [List.foldl_nil, show touched ([] : List Block) = [] from rfl,
      List.filter_nil, show dedupKeepFirst [] = [] from by rw [dedupKeepFirst],
      List.map_nil, List.append_nil]
    have hid : (fun (e : Text × PairRec) =>
        (e.1, mergeRec e.2 (lastFromB [] e.1) (lastToB [] e.1))) = fun e => e := by
      funext e
      rw [show lastFromB [] e.1 = none from rfl,
        show lastToB [] e.1 = none from rfl, mergeRec_none]
    rw [hid]
    exact (List.map_id ps).symm
  | cons blk rest ih =>
    intro ps hnd
    rw [List.foldl_cons]
    cases hf : blockFile blk with
    | none =>
      have hirr : ∀ q : Text, blockFile blk ≠ some q := by
        intro q h
        rw [hf] at h
        exact Option.noConfusion h
      have hps : pairStep ps blk = ps := by rw [pairStep, hf]
      rw [hps, ih ps hnd, touched_cons_none (relPath_none_file hf)]
      rw [show (fun (e : Text × PairRec) =>
          (e.1, mergeRec e.2 (lastFromB (blk :: rest) e.1) (lastToB (blk :: rest) e.1)))
        = fun e => (e.1, mergeRec e.2 (lastFromB rest e.1) (lastToB rest e.1)) from by
          funext e
          rw [(last_cons_irrel (hirr e.1)).1, (last_cons_irrel (hirr e.1)).2]]
      rw [show (fun (p : Text) =>
          (p, PairRec.mk (lastFromB (blk :: rest) p) (lastToB (blk :: rest) p)))
        = fun p => (p, PairRec.mk (lastFromB rest p) (lastToB rest p)) from by
          funext p
          rw [(last_cons_irrel (hirr p)).1, (last_cons_irrel (hirr p)).2]]
    | some f =>
      cases hm : blockMode blk with
      | none =>
        have hnf : blockMode blk ≠ some Mode.fromM := by
          intro h; rw [hm] at h; exact Option.noConfusion h
        have hnt : blockMode blk ≠ some Mode.toM := by
          intro h; rw [hm] at h; exact Option.noConfusion h
        have hps : pairStep ps blk = ps := by rw [pairStep, hf, hm]
        rw [hps, ih ps hnd, touched_cons_none (relPath_none_mode hm)]
        rw [show (fun (e : Text × PairRec) =>
            (e.1, mergeRec e.2 (lastFromB (blk :: rest) e.1) (lastToB (blk :: rest) e.1)))
          = fun e => (e.1, mergeRec e.2 (lastFromB rest e.1) (lastToB rest e.1)) from by
            funext e
            rw [lastFromB_cons_not_from hnf, lastToB_cons_not_to hnt]]
        rw [show (fun (p : Text) =>
            (p, PairRec.mk (lastFromB (blk :: rest) p) (lastToB (blk :: rest) p)))
          = fun p => (p, PairRec.mk (lastFromB rest p) (lastToB rest p)) from by
            funext p
            rw [lastFromB_cons_not_from hnf, lastToB_cons_not_to hnt]]
      | some m =>
        have hps : pairStep ps blk = setPair ps f m blk.2 := by rw [pairStep, hf, hm]
        rw [hps]
        have hrel : relPath blk = some f := relPath_some hf hm
        have hirrne : ∀ q : Text, q ≠ f → blockFile blk ≠ some q := by
          intro q hq h
          rw [hf] at h
          exact hq (Option.some.inj h).symm
        by_cases hmem : f ∈ keysOf ps
        · rw [setPair_mem f m blk.2 ps hnd hmem]
          have hkeys : keysOf (ps.map
              (fun e => if e.1 = f then (e.1, upd1 e.2 m blk.2) else e)) = keysOf ps := by
            rw [keysOf, keysOf, List.map_map]
            apply List.map_congr_left
            intro e _
            by_cases he : e.1 = f <;> simp [he]
          rw [ih _ (by rw [hkeys]; exact hnd), hkeys,
            touched_cons_some hrel, List.filter_cons,
            if_neg (by simp [hmem])]
          congr 1
          · rw [List.map_map]
            apply List.map_congr_left
            intro e _
            by_cases h1 : e.1 = f
            · simp only [Function.comp_apply]
              rw [if_pos h1]
              show (e.1, mergeRec (upd1 e.2 m blk.2) (lastFromB rest e.1) (lastToB rest e.1))
                = (e.1, mergeRec e.2 (lastFromB (blk :: rest) e.1) (lastToB (blk :: rest) e.1))
              rw [h1]
              cases m with
              | fromM =>
                rw [lastFromB_cons_from hf hm,
                  lastToB_cons_not_to (by rw [hm]; intro h; cases Option.some.inj h)]
                show (f, PairRec.mk (or2 (lastFromB rest f) (some blk.2))
                    (or2 (lastToB rest f) e.2.toB))
                  = (f, PairRec.mk (or2 (or2 (lastFromB rest f) (some blk.2)) e.2.fromB)
                    (or2 (lastToB rest f) e.2.toB))
                rw [or2_some_absorb]
              | toM =>
                rw [lastToB_cons_to hf hm,
                  lastFromB_cons_not_from (by rw [hm]; intro h; cases Option.some.inj h)]
                show (f, PairRec.mk (or2 (lastFromB rest f) e.2.fromB)
                    (or2 (lastToB rest f) (some blk.2)))
                  = (f, PairRec.mk (or2 (lastFromB rest f) e.2.fromB)
                    (or2 (or2 (lastToB rest f) (some blk.2)) e.2.toB))
                rw [or2_some_absorb]
            · simp only [Function.comp_apply]
              rw [if_neg h1, (last_cons_irrel (hirrne e.1 h1)).1,
                (last_cons_irrel (hirrne e.1 h1)).2]
          · apply List.map_congr_left
            intro q hq
            have hqne : q ≠ f := by
              intro he
              subst he
              have h1 := (mem_dedupKeepFirst _ _).mp hq
              have h2 := (List.mem_filter.mp h1).2
              rw [decide_eq_true_eq] at h2
              exact h2 hmem
            rw [(last_cons_irrel (hirrne q hqne)).1, (last_cons_irrel (hirrne q hqne)).2]
        · rw [setPair_not_mem f m blk.2 ps hmem]
          have hnd2 : (keysOf (ps ++ [(f, upd1 {} m blk.2)])).Nodup := by
            rw [keysOf_append, List.nodup_append]
            refine ⟨hnd, List.nodup_singleton _, ?_⟩
            intro x hx hx2
            have : x = f := by simpa [keysOf] using hx2
            subst this
            exact hmem hx
          rw [ih _ hnd2, List.map_append, touched_cons_some hrel, List.filter_cons,
            if_pos (by simp [hmem]), dedupKeepFirst_cons, List.map_cons]
          have hfilt : (touched rest).filter
                (fun q => decide (q ∉ keysOf (ps ++ [(f, upd1 {} m blk.2)])))
              = ((touched rest).filter (fun q => decide (q ∉ keysOf ps))).filter
                  (fun x => x ≠ f) := by
            rw [List.filter_filter]
            apply List.filter_congr
            intro q _
            have hkapp : keysOf (ps ++ [(f, upd1 {} m blk.2)]) = keysOf ps ++ [f] := by
              rw [keysOf_append]
              rfl
            rw [hkapp, ← Bool.decide_and, decide_eq_decide]
            constructor
            · intro h
              refine ⟨fun he => h ?_, fun hin => h (List.mem_append_left _ hin)⟩
              exact List.mem_append_right _ (he ▸ List.mem_singleton_self f)
            · rintro ⟨hne, hnin⟩ hmem2
              rcases List.mem_append.mp hmem2 with h | h
              · exact hnin h
              · exact hne (List.mem_singleton.mp h)
          rw [hfilt, List.append_assoc, List.cons_append, List.map_nil, List.nil_append]
          congr 1
          · apply List.map_congr_left
            intro e he
            have h1 : e.1 ≠ f := by
              intro hh
              exact hmem (hh ▸ List.mem_map_of_mem Prod.fst he)
            rw [(last_cons_irrel (hirrne e.1 h1)).1, (last_cons_irrel (hirrne e.1 h1)).2]
          · congr 1
            · cases m with
              | fromM =>
                show (f, mergeRec (upd1 {} Mode.fromM blk.2)
                    (lastFromB rest f) (lastToB rest f))
                  = (f, PairRec.mk (lastFromB (blk :: rest) f) (lastToB (blk :: rest) f))
                rw [lastFromB_cons_from hf hm,
                  lastToB_cons_not_to (by rw [hm]; intro h; cases Option.some.inj h),
                  show upd1 {} Mode.fromM blk.2 = PairRec.mk (some blk.2) none from rfl]
                show (f, PairRec.mk (or2 (lastFromB rest f) (some blk.2))
                    (or2 (lastToB rest f) none))
                  = (f, PairRec.mk (or2 (lastFromB rest f) (some blk.2)) (lastToB rest f))
                rw [or2_none_right]
              | toM =>
                show (f, mergeRec (upd1 {} Mode.toM blk.2)
                    (lastFromB rest f) (lastToB rest f))
                  = (f, PairRec.mk (lastFromB (blk :: rest) f) (lastToB (blk :: rest) f))
                rw [lastToB_cons_to hf hm,
                  lastFromB_cons_not_from (by rw [hm]; intro h; cases Option.some.inj h),
                  show upd1 {} Mode.toM blk.2 = PairRec.mk none (some blk.2) from rfl]
                show (f, PairRec.mk (or2 (lastFromB rest f) none)
                    (or2 (lastToB rest f) (some blk.2)))
                  = (f, PairRec.mk (lastFromB rest f) (or2 (lastToB rest f) (some blk.2)))
                rw [or2_none_right]
            · apply List.map_congr_left
              intro q hq
              have hqne : q ≠ f := by
                have h1 := (mem_dedupKeepFirst _ _).mp hq
                have h2 := (List.mem_filter.mp h1).2
                simpa using h2
              rw [(last_cons_irrel (hirrne q hqne)).1,
                (last_cons_irrel (hirrne q hqne)).2]

theorem parseInstrB_char (bs : List Block) :
    parseInstrB bs = writesOf bs ++
      (dedupKeepFirst (touched bs)).filterMap (replaceOf bs) := by
  simp only [parseInstrB]
  rw [foldl_scanStep bs ([], []), pairsFold_char bs [] List.nodup_nil]
  simp only [List.map_nil, List.nil_append]
  have hfl : (touched bs).filter
      (fun p => decide (p ∉ ([] : List Text))) = touched bs := by
    apply List.filter_eq_self.mpr
    intro a _
    simp
  rw [hfl, emitReplaces, List.filterMap_map]
  rfl

theorem mem_writesOf_isWrite {bs : List Block} {i : Instr} (h : i ∈ writesOf bs) :
    isWriteInstr i = true := by
  rw [writesOf] at h
  obtain ⟨blk, _, hblk⟩ := List.mem_filterMap.mp h
  rw [toWrite] at hblk
  split at hblk
  · cases hblk
    rfl
  · cases hblk

theorem lastFromB_isSome_iff (bs : List Block) (p : Text) :
    (lastFromB bs p).isSome = true ↔
      ∃ blk ∈ bs, blockFile blk = some p ∧ blockMode blk = some Mode.fromM := by
  induction bs with
  | nil =>
    rw [show lastFromB [] p = none from rfl]
    simp
  | cons blk rest ih =>
    rw [lastFromB_cons]
    cases hR : lastFromB rest p with
    | some b =>
      rw [show or2 (some b)
          (if blockFile blk = some p ∧ blockMode blk = some Mode.fromM
           then some blk.2 else none) = some b from rfl]
      simp only [Option.isSome_some, true_iff]
      obtain ⟨q, hqmem, hqp⟩ := ih.mp (by rw [hR]; rfl)
      exact ⟨q, List.mem_cons_of_mem _ hqmem, hqp⟩
    | none =>
      rw [or2_none_left]
      by_cases hc : blockFile blk = some p ∧ blockMode blk = some Mode.fromM
      · rw [if_pos hc]
        simp only [Option.isSome_some, true_iff]
        exact ⟨blk, List.mem_cons_self _ _, hc⟩
      · rw [if_neg hc]
        constructor
        · intro h
          cases h
        · rintro ⟨q, hqmem, hqp⟩
          rcases List.mem_cons.mp hqmem with h | h
          · exact absurd (h ▸ hqp) hc
          · have := ih.mpr ⟨q, h, hqp⟩
            rw [hR] at this
            cases this

theorem lastToB_isSome_iff (bs : List Block) (p : Text) :
    (lastToB bs p).isSome = true ↔
      ∃ blk ∈ bs, blockFile blk = some p ∧ blockMode blk = some Mode.toM := by
  induction bs with
  | nil =>
    rw [show lastToB [] p = none from rfl]
    simp
  | cons blk rest ih =>
    rw [lastToB_cons]
    cases hR : lastToB rest p with
    | some b =>
      rw [show or2 (some b)
          (if blockFile blk = some p ∧ blockMode blk = some Mode.toM
           then some blk.2 else none) = some b from rfl]
      simp only [Option.isSome_some, true_iff]
      obtain ⟨q, hqmem, hqp⟩ := ih.mp (by rw [hR]; rfl)
      exact ⟨q, List.mem_cons_of_mem _ hqmem, hqp⟩
    | none =>
      rw [or2_none_left]
      by_cases hc : blockFile blk = some p ∧ blockMode blk = some Mode.toM
      · rw [if_pos hc]
        simp only [Option.isSome_some, true_iff]
        exact ⟨blk, List.mem_cons_self _ _, hc⟩
      · rw [if_neg hc]
        constructor
        · intro h
          cases h
        · rintro ⟨q, hqmem, hqp⟩
          rcases List.mem_cons.mp hqmem with h | h
          · exact absurd (h ▸ hqp) hc
          · have := ih.mpr ⟨q, h, hqp⟩
            rw [hR] at this
            cases this

theorem mem_touched_of_rel {bs : List Block} {blk : Block} {p : Text}
    (hmem : blk ∈ bs) (hf : blockFile blk = some p) {m : Mode}
    (hm : blockMode blk = some m) : p ∈ touched bs := by
  rw [touched]
  exact List.mem_filterMap.mpr ⟨blk, hmem, relPath_some hf hm⟩

theorem replace_mem_iff (bs : List Block) (p : Text) :
    (∃ a c, Instr.replace p a c ∈ parseInstrB bs) ↔
      ((lastFromB bs p).isSome = true ∧ (lastToB bs p).isSome = true) := by
  rw [parseInstrB_char]
  constructor
  · rintro ⟨a, c, hmem⟩
    rcases List.mem_append.mp hmem with h | h
    · have := mem_writesOf_isWrite h
      rw [isWriteInstr] at this
      cases this
    · obtain ⟨q, _, hqeq⟩ := List.mem_filterMap.mp h
      rw [replaceOf] at hqeq
      split at hqeq
      · rename_i a0 c0 hlf hlt
        have hinj := Option.some.inj hqeq
        injection hinj with h1 h2 h3
        subst h1
        rw [hlf, hlt]
        exact ⟨rfl, rfl⟩
      · cases hqeq
  · rintro ⟨hf, ht⟩
    obtain ⟨a, hA⟩ := Option.isSome_iff_exists.mp hf
    obtain ⟨c, hC⟩ := Option.isSome_iff_exists.mp ht
    refine ⟨a, c, List.mem_append_right _ ?_⟩
    apply List.mem_filterMap.mpr
    refine ⟨p, ?_, by rw [replaceOf, hA, hC]⟩
    rw [mem_dedupKeepFirst]
    obtain ⟨blk, hmem, hprop⟩ := (lastFromB_isSome_iff bs p).mp hf
    exact mem_touched_of_rel hmem hprop.1 hprop.2

theorem replace_mem_iff_bodies (bs : List Block) (p a c : Text) :
    Instr.replace p a c ∈ parseInstrB bs ↔
      (lastFromB bs p = some a ∧ lastToB bs p = some c) := by
  rw [parseInstrB_char]
  constructor
  · intro hmem
    rcases List.mem_append.mp hmem with h | h
    · have := mem_writesOf_isWrite h
      rw [isWriteInstr] at this
      cases this
    · obtain ⟨q, _, hqeq⟩ := List.mem_filterMap.mp h
      rw [replaceOf] at hqeq
      split at hqeq
      · rename_i a0 c0 hlf hlt
        have hinj := Option.some.inj hqeq
        injection hinj with h1 h2 h3
        subst h1
        subst h2
        subst h3
        exact ⟨hlf, hlt⟩
      · cases hqeq
  · rintro ⟨hA, hC⟩
    refine List.mem_append_right _ ?_
    apply List.mem_filterMap.mpr
    refine ⟨p, ?_, by rw [replaceOf, hA, hC]⟩
    rw [mem_dedupKeepFirst]
    have hf : (lastFromB bs p).isSome = true := by rw [hA]; rfl
    obtain ⟨blk, hmem, hprop⟩ := (lastFromB_isSome_iff bs p).mp hf
    exact mem_touched_of_rel hmem hprop.1 hprop.2

theorem replace_pairs_bodies (p : Text) (pre mid suf : List Block) (x y : Block)
    (hx1 : blockFile x = some p) (hx2 : blockMode x = some Mode.fromM)
    (hy1 : blockFile y = some p) (hy2 : blockMode y = some Mode.toM)
    (hrest : ∀ blk ∈ pre ++ (mid ++ suf),
      ¬ (blockFile blk = some p ∧ (blockMode blk).isSome = true)) :
    Instr.replace p x.2 y.2 ∈ parseInstrB (pre ++ x :: (mid ++ y :: suf)) := by
  have hpre : ∀ blk ∈ pre, ¬ (blockFile blk = some p ∧ (blockMode blk).isSome = true) :=
    fun blk hb => hrest blk (List.mem_append_left _ hb)
  have hmid : ∀ blk ∈ mid, ¬ (blockFile blk = some p ∧ (blockMode blk).isSome = true) :=
    fun blk hb => hrest blk (List.mem_append_right _ (List.mem_append_left _ hb))
  have hsuf : ∀ blk ∈ suf, ¬ (blockFile blk = some p ∧ (blockMode blk).isSome = true) :=
    fun blk hb => hrest blk (List.mem_append_right _ (List.mem_append_right _ hb))
  have hyne : blockMode y ≠ some Mode.fromM := by
    rw [hy2]
    exact fun hc => Mode.noConfusion (Option.some.inj hc)
  have hxne : blockMode x ≠ some Mode.toM := by
    rw [hx2]
    exact fun hc => Mode.noConfusion (Option.some.inj hc)
  have hLF : lastFromB (pre ++ x :: (mid ++ y :: suf)) p = some x.2 := by
    rw [lastFromB_append, lastFromB_cons_from hx1 hx2, lastFromB_append,
      lastFromB_cons_not_from hyne, lastFromB_none_of pre p hpre,
      lastFromB_none_of mid p hmid, lastFromB_none_of suf p hsuf]
    rfl
  have hLT : lastToB (pre ++ x :: (mid ++ y :: suf)) p = some y.2 := by
    rw [lastToB_append, lastToB_cons_not_to hxne, lastToB_append,
      lastToB_cons_to hy1 hy2, lastToB_none_of pre p hpre,
      lastToB_none_of mid p hmid, lastToB_none_of suf p hsuf]
    rfl
  exact (replace_mem_iff_bodies _ p x.2 y.2).mpr ⟨hLF, hLT⟩

theorem countP_filterMap_instr (g : Text → Option Instr) (pr : Instr → Bool) :
    ∀ l : List Text, (l.filterMap g).countP pr
      = l.countP (fun a => match g a with | some i => pr i | none => false) := by
  intro l
  induction l with
  | nil => rfl
  | cons a t ih =>
    rw [List.filterMap_cons]
    cases hg : g a with
    | none =>
      rw [List.countP_cons, ih]
      simp [hg]
    | some i =>
      rw [List.countP_cons, List.countP_cons, ih]
      simp [hg]

theorem countP_eq_one_of (pred : Text → Bool) (p : Text) :
    ∀ l : List Text, l.Nodup → p ∈ l → (∀ q, pred q = true → q = p) →
      pred p = true → l.countP pred = 1 := by
  intro l
  induction l with
  | nil => intro _ hp; simp at hp
  | cons a t ih =>
    intro hnd hp huniq hpp
    rw [List.countP_cons]
    rcases List.mem_cons.mp hp with h | h
    · subst h
      have ht0 : t.countP pred = 0 := by
        apply List.countP_eq_zero.mpr
        intro q hq hpq
        have := huniq q hpq
        subst this
        exact (List.nodup_cons.mp hnd).1 hq
      rw [ht0, hpp]
      simp
    · have ha : ¬ pred a = true := by
        intro hpa
        have := huniq a hpa
        subst this
        exact (List.nodup_cons.mp hnd).1 h
      rw [ih (List.nodup_cons.mp hnd).2 h huniq hpp]
      simp [ha]

theorem replace_count (bs : List Block) (p : Text)
    (hf : (lastFromB bs p).isSome = true) (ht : (lastToB bs p).isSome = true) :
    (parseInstrB bs).countP (isReplaceFor p) = 1 := by
  rw [parseInstrB_char, List.countP_append]
  have h0 : (writesOf bs).countP (isReplaceFor p) = 0 := by
    apply List.countP_eq_zero.mpr
    intro i hi hri
    have hw := mem_writesOf_isWrite hi
    cases i with
    | write f c => rw [isReplaceFor] at hri; cases hri
    | replace f a c => rw [isWriteInstr] at hw; cases hw
  rw [h0, countP_filterMap_instr]
  obtain ⟨a, hA⟩ := Option.isSome_iff_exists.mp hf
  obtain ⟨c, hC⟩ := Option.isSome_iff_exists.mp ht
  rw [countP_eq_one_of _ p _ (nodup_dedupKeepFirst _) ?_ ?_ ?_]
  · rw [mem_dedupKeepFirst]
    obtain ⟨blk, hmem, hprop⟩ := (lastFromB_isSome_iff bs p).mp hf
    exact mem_touched_of_rel hmem hprop.1 hprop.2
  · intro q hq
    rw [replaceOf] at hq
    split at hq
    · rename_i i hgi
      split at hgi
      · have := Option.some.inj hgi
        subst this
        exact of_decide_eq_true hq
      · cases hgi
    · cases hq
  · rw [replaceOf, hA, hC]
    exact decide_eq_true rfl

theorem parseInstrB_swap (p : Text) (pre mid suf : List Block) (x y : Block)
    (hx1 : blockFile x = some p) (hx2 : blockMode x = some Mode.fromM)
    (hy1 : blockFile y = some p) (hy2 : blockMode y = some Mode.toM)
    (hmid : ∀ blk ∈ mid, ¬ (blockFile blk = some p ∧ (blockMode blk).isSome = true)) :
    parseInstrB (pre ++ x :: (mid ++ y :: suf))
      = parseInstrB (pre ++ y :: (mid ++ x :: suf)) := by
  have hwx : toWrite x = none := by rw [toWrite, hx1, hx2]
  have hwy : toWrite y = none := by rw [toWrite, hy1, hy2]
  have hrx : relPath x = some p := relPath_some hx1 hx2
  have hry : relPath y = some p := relPath_some hy1 hy2
  have hW : writesOf (pre ++ x :: (mid ++ y :: suf))
      = writesOf (pre ++ y :: (mid ++ x :: suf)) := by
    simp only [writesOf, List.filterMap_append, List.filterMap_cons, hwx, hwy]
  have hT : touched (pre ++ x :: (mid ++ y :: suf))
      = touched (pre ++ y :: (mid ++ x :: suf)) := by
    simp only [touched, List.filterMap_append, List.filterMap_cons, hrx, hry]
  have hxq : ∀ q : Text, q ≠ p →
      (if blockFile x = some q ∧ blockMode x = some Mode.fromM
       then some x.2 else none) = none := by
    intro q hq
    rw [if_neg (fun hc => hq (Option.some.inj (hx1 ▸ hc.1)).symm)]
  have hyq : ∀ q : Text,
      (if blockFile y = some q ∧ blockMode y = some Mode.fromM
       then some y.2 else none) = none := by
    intro q
    rw [if_neg (fun hc => Mode.noConfusion (Option.some.inj (hy2 ▸ hc.2)))]
  have hxq' : ∀ q : Text,
      (if blockFile x = some q ∧ blockMode x = some Mode.toM
       then some x.2 else none) = none := by
    intro q
    rw [if_neg (fun hc => Mode.noConfusion (Option.some.inj (hx2 ▸ hc.2)))]
  have hyq' : ∀ q : Text, q ≠ p →
      (if blockFile y = some q ∧ blockMode y = some Mode.toM
       then some y.2 else none) = none := by
    intro q hq
    rw [if_neg (fun hc => hq (Option.some.inj (hy1 ▸ hc.1)).symm)]
  have hLF : ∀ q, lastFromB (pre ++ x :: (mid ++ y :: suf)) q
      = lastFromB (pre ++ y :: (mid ++ x :: suf)) q := by
    intro q
    rw [lastFromB_append, lastFromB_cons, lastFromB_append, lastFromB_cons,
      lastFromB_append, lastFromB_cons, lastFromB_append, lastFromB_cons]
    by_cases hq : q = p
    · subst hq
      rw [hyq q, lastFromB_none_of mid q (fun blk hb => hmid blk hb),
        if_pos ⟨hx1, hx2⟩]
      simp only [or2_none_right]
    · rw [hyq q, hxq q hq]
  have hLT : ∀ q, lastToB (pre ++ x :: (mid ++ y :: suf)) q
      = lastToB (pre ++ y :: (mid ++ x :: suf)) q := by
    intro q
    rw [lastToB_append, lastToB_cons, lastToB_append, lastToB_cons,
      lastToB_append, lastToB_cons, lastToB_append, lastToB_cons]
    by_cases hq : q = p
    · subst hq
      rw [hxq' q, lastToB_none_of mid q (fun blk hb => hmid blk hb),
        if_pos ⟨hy1, hy2⟩]
      simp only [or2_none_right]
    · rw [hxq' q, hyq' q hq]
  have hRep : replaceOf (pre ++ x :: (mid ++ y :: suf))
      = replaceOf (pre ++ y :: (mid ++ x :: suf)) := by
    funext q
    rw [replaceOf, replaceOf, hLF q, hLT q]
  rw [parseInstrB_char, parseInstrB_char, hW, hT, hRep]

/-- Claim C2: a `replace` instruction for a path is emitted if and only if,
after the whole document is scanned, some from-tagged block and some
to-tagged block declare that path; the emitted instruction pairs the block
bodies: a replace with bodies `a` and `c` is emitted exactly when `a` is
the (last) from body and `c` is the (last) to body recorded for the path,
so in particular when the document holds exactly one from block and one to
block for the path the replace pairs exactly those two blocks' bodies;
when both halves are present exactly one `replace` instruction for the
path is emitted; and exchanging the from block and the to block of a path
(no other block between them touching that path's pairing state) does not
change the result. -/
theorem c2_pairing (md : Text) (p : Text) :
    ((∃ a c, Instr.replace p a c ∈ parse_instructions md) ↔
      ((∃ blk ∈ findBlocks md,
          blockFile blk = some p ∧ blockMode blk = some Mode.fromM)
        ∧ (∃ blk ∈ findBlocks md,
          blockFile blk = some p ∧ blockMode blk = some Mode.toM)))
    ∧ (∀ a c, Instr.replace p a c ∈ parse_instructions md ↔
        (lastFromB (findBlocks md) p = some a
          ∧ lastToB (findBlocks md) p = some c))
    ∧ (∀ (pre mid suf : List Block) (x y : Block),
        blockFile x = some p → blockMode x = some Mode.fromM →
        blockFile y = some p → blockMode y = some Mode.toM →
        (∀ blk ∈ pre ++ (mid ++ suf),
          ¬ (blockFile blk = some p ∧ (blockMode blk).isSome = true)) →
        Instr.replace p x.2 y.2 ∈ parseInstrB (pre ++ x :: (mid ++ y :: suf)))
    ∧ (((∃ blk ∈ findBlocks md,
          blockFile blk = some p ∧ blockMode blk = some Mode.fromM)
        ∧ (∃ blk ∈ findBlocks md,
          blockFile blk = some p ∧ blockMode blk = some Mode.toM)) →
        (parse_instructions md).countP (isReplaceFor p) = 1)
    ∧ (∀ (pre mid suf : List Block) (x y : Block),
        blockFile x = some p → blockMode x = some Mode.fromM →
        blockFile y = some p → blockMode y = some Mode.toM →
        (∀ blk ∈ mid, ¬ (blockFile blk = some p ∧ (blockMode blk).isSome = true)) →
        parseInstrB (pre ++ x :: (mid ++ y :: suf))
          = parseInstrB (pre ++ y :: (mid ++ x :: suf))) := by
  refine ⟨?_, ?_, ?_, ?_, ?_⟩
  · rw [show parse_instructions md = parseInstrB (findBlocks md) from rfl,
      replace_mem_iff, lastFromB_isSome_iff, lastToB_isSome_iff]
  · intro a c
    rw [show parse_instructions md = parseInstrB (findBlocks md) from rfl]
    exact replace_mem_iff_bodies (findBlocks md) p a c
  · intro pre mid suf x y hx1 hx2 hy1 hy2 hrest
    exact replace_pairs_bodies p pre mid suf x y hx1 hx2 hy1 hy2 hrest
  · rintro ⟨h1, h2⟩
    exact replace_count _ p ((lastFromB_isSome_iff _ _).mpr h1)
      ((lastToB_isSome_iff _ _).mpr h2)
  · intro pre mid suf x y hx1 hx2 hy1 hy2 hmid
    exact parseInstrB_swap p pre mid suf x y hx1 hx2 hy1 hy2 hmid

/-- Witness for `c2_pairing`: a document with one from block (body "X")
and one to block (body "Y") for path "a" yields the replace instruction
pairing exactly the bodies "X" and "Y", that instruction is present on
the bare two-block list as well, exactly one replace instruction for "a"
is emitted, and swapping the two concrete blocks leaves the result
unchanged. -/
theorem c2_pairing_witness :
    Instr.replace "a".toList "X".toList "Y".toList
        ∈ parse_instructions (mkBlocksDoc [("from file=a".toList, "X".toList),
            ("to file=a".toList, "Y".toList)])
    ∧ Instr.replace "a".toList "X".toList "Y".toList
        ∈ parseInstrB [("from file=a".toList, "X".toList),
            ("to file=a".toList, "Y".toList)]
    ∧ (parse_instructions (mkBlocksDoc [("from file=a".toList, "X".toList),
        ("to file=a".toList, "Y".toList)])).countP (isReplaceFor "a".toList) = 1
    ∧ parseInstrB [("from file=a".toList, "X".toList), ("to file=a".toList, "Y".toList)]
        = parseInstrB [("to file=a".toList, "Y".toList), ("from file=a".toList, "X".toList)] := by
  refine ⟨?_, ?_, ?_, ?_⟩
  · apply ((c2_pairing (mkBlocksDoc [("from file=a".toList, "X".toList),
      ("to file=a".toList, "Y".toList)]) "a".toList).2.1 "X".toList "Y".toList).mpr
    rw [findBlocks_mkDoc _ (by decide)]
    exact ⟨by decide, by decide⟩
  · exact (c2_pairing [] "a".toList).2.2.1 [] [] []
      ("from file=a".toList, "X".toList) ("to file=a".toList, "Y".toList)
      (by decide) (by decide) (by decide) (by decide) (by intro blk hb; cases hb)
  · apply (c2_pairing (mkBlocksDoc [("from file=a".toList, "X".toList),
      ("to file=a".toList, "Y".toList)]) "a".toList).2.2.2.1
    rw [findBlocks_mkDoc _ (by decide)]
    exact ⟨by decide, by decide⟩
  · exact (c2_pairing [] "a".toList).2.2.2.2 [] [] []
      ("from file=a".toList, "X".toList) ("to file=a".toList, "Y".toList)
      (by decide) (by decide) (by decide) (by decide) (by intro blk hb; cases hb)

/-- Claim C3 (amended): all write instructions precede all replace
instructions; the replaces appear in the order in which each path first
appeared on a pairing-relevant (from- or to-tagged) block — the insertion
order of the pairing dictionary — and not necessarily in the order in which
the pairs were completed; each emitted replace pairs the last from body
with the last to body seen for its path. -/
theorem c3_order_amended (md : Text) :
    parse_instructions md =
      writesOf (findBlocks md) ++
        (dedupKeepFirst (touched (findBlocks md))).filterMap
          (replaceOf (findBlocks md))
    ∧ (∀ i ∈ writesOf (findBlocks md), isWriteInstr i = true)
    ∧ (∀ i ∈ (dedupKeepFirst (touched (findBlocks md))).filterMap
          (replaceOf (findBlocks md)), isWriteInstr i = false) := by
  refine ⟨parseInstrB_char _, fun i hi => mem_writesOf_isWrite hi, ?_⟩
  intro i hi
  obtain ⟨q, _, hq⟩ := List.mem_filterMap.mp hi
  rw [replaceOf] at hq
  split at hq
  · cases hq
    rfl
  · cases hq

/-- Witness for `c3_order_amended`: a concrete one-write document whose
single write instruction is in the write segment. -/
theorem c3_order_amended_witness :
    isWriteInstr (Instr.write "w".toList "B".toList) = true := by
  apply (c3_order_amended (mkBlocksDoc [("file=w".toList, "B".toList)])).2.1
  rw [findBlocks_mkDoc _ (by decide)]
  decide

/-- Counterexample to claim C3 as stated: in the document with blocks
`from file=a`, `from file=b`, `to file=b`, `to file=a`, path "b" first has
both halves at block index 2 while path "a" only completes at index 3, yet
the replace for "a" is emitted before the replace for "b" — dictionary
insertion (first-appearance) order, not first-pairing-completed order. -/
theorem c3_counterexample :
    parse_instructions (mkBlocksDoc [("from file=a".toList, "1".toList),
        ("from file=b".toList, "2".toList), ("to file=b".toList, "3".toList),
        ("to file=a".toList, "4".toList)])
      = [Instr.replace "a".toList "1".toList "4".toList,
         Instr.replace "b".toList "2".toList "3".toList]
    ∧ completionIdx (findBlocks (mkBlocksDoc [("from file=a".toList, "1".toList),
        ("from file=b".toList, "2".toList), ("to file=b".toList, "3".toList),
        ("to file=a".toList, "4".toList)])) "b".toList = some 2
    ∧ completionIdx (findBlocks (mkBlocksDoc [("from file=a".toList, "1".toList),
        ("from file=b".toList, "2".toList), ("to file=b".toList, "3".toList),
        ("to file=a".toList, "4".toList)])) "a".toList = some 3 := by
  have hfb := findBlocks_mkDoc [("from file=a".toList, "1".toList),
    ("from file=b".toList, "2".toList), ("to file=b".toList, "3".toList),
    ("to file=a".toList, "4".toList)] (by decide)
  refine ⟨?_, ?_, ?_⟩
  · rw [parse_instructions, hfb]
    decide
  · rw [hfb]
    decide
  · rw [hfb]
    decide
